import Mathlib

/-!
Verification of `libsea.py` (PyLibSea): a shallow embedding of the LibSea
text-format serializer and its graph assembler, with theorems settling the
frozen claims about the specification.

Strings are modelled as `List Char` (named `Str`), matching Python's
character-sequence semantics for `replace`, `re.sub`, `split('\n')` and
`'\n'.join`.
-/

set_option autoImplicit false

abbrev Str := List Char

/-- Models Python's `amount * " "`. -/
def spaces : Nat → Str
  | 0 => []
  | n + 1 => ' ' :: spaces n

/-- Models Python's `sep.join(parts)`. -/
def joinWith (sep : Str) : List Str → Str
  | [] => []
  | [x] => x
  | x :: y :: rest => x ++ sep ++ joinWith sep (y :: rest)

/-- Models Python's `string.split('\n')`: always returns at least one
(possibly empty) line, and never a line containing a newline. -/
def splitNL : Str → List Str
  | [] => [[]]
  | c :: rest =>
    let ls := splitNL rest
    if c = '\n' then [] :: ls
    else (c :: ls.headD []) :: ls.tail

def joinNL (ls : List Str) : Str := joinWith ['\n'] ls

/-- Models `_indent` (libsea.py lines 21-28): with amount 0 the text is
returned unchanged; otherwise every non-empty line is prefixed with
`amount` spaces and blank lines are left untouched. -/
def indentText (s : Str) (amount : Nat) : Str :=
  if amount = 0 then s
  else joinNL ((splitNL s).map (fun line => if line.isEmpty then line else spaces amount ++ line))

/-- The characters escaped by `String.serialize`'s regex
`([\\"\n\r\t\f\b|])` (libsea.py line 115). -/
def isSpecial (c : Char) : Bool :=
  c = '\\' || c = '"' || c = '\n' || c = '\r' || c = '\t' || c = '\x0c' || c = '\x08' || c = '|'

/-- Models `re.sub(r'([\\"\n\r\t\f\b|])', r'\\\1', s)`: a single
left-to-right pass prefixing each special character with one backslash. -/
def escape : Str → Str
  | [] => []
  | c :: rest => if isSpecial c then '\\' :: c :: escape rest else c :: escape rest

/-- Models `value.replace('\r', r'\r')` in `String.__init__` (line 112). -/
def normCR : Str → Str
  | [] => []
  | c :: rest => if c = '\r' then '\\' :: 'r' :: normCR rest else c :: normCR rest

/-- Models `.replace('\n', r'\n')` in `String.__init__` (line 112). -/
def normLF : Str → Str
  | [] => []
  | c :: rest => if c = '\n' then '\\' :: 'n' :: normLF rest else c :: normLF rest

/-- The value stored by `String.__init__`: carriage returns and newlines
rewritten to the literal two-character sequences. -/
def stringInit (s : Str) : Str := normLF (normCR s)

/-- Models `String.serialize` (lines 113-115) applied to a `String`
constructed from raw text `s`. -/
def stringSer (s : Str) : Str := '"' :: escape (stringInit s) ++ ['"']

/-- A text is well-escaped when it parses as a sequence of plain
non-special characters and two-character escapes, each escape being one
backslash followed by one special character. -/
def wellEscaped : Str → Bool
  | [] => true
  | [c] => !isSpecial c
  | c :: c2 :: rest =>
    if c = '\\' then isSpecial c2 && wellEscaped rest
    else !isSpecial c && wellEscaped (c2 :: rest)

/-- Decoder for the escaping pass: drops one backslash before each
escaped character. -/
def unescape : Str → Str
  | [] => []
  | [c] => [c]
  | c :: c2 :: rest => if c = '\\' then c2 :: unescape rest else c :: unescape (c2 :: rest)

/-- The rendering demanded by the claim read literally: a single escaping
pass over the raw input, wrapped in double quotes. -/
def escapedSinglePass (input rendered : Str) : Prop :=
  rendered = '"' :: escape input ++ ['"']

/-- Decimal digit characters, used to model Python's `str(int)`. -/
def digitChar : Nat → Char
  | 0 => '0'
  | 1 => '1'
  | 2 => '2'
  | 3 => '3'
  | 4 => '4'
  | 5 => '5'
  | 6 => '6'
  | 7 => '7'
  | 8 => '8'
  | _ => '9'

/-- Fueled decimal rendering of a natural number (most significant digit
first); the fuel `n + 1` used by `natStr` always suffices. -/
def natDigits : Nat → Nat → Str
  | 0, _ => []
  | fuel + 1, n => if n < 10 then [digitChar n] else natDigits fuel (n / 10) ++ [digitChar (n % 10)]

/-- Canonical decimal text of a natural number, models `str` on a
non-negative Python int. -/
def natStr (n : Nat) : Str := natDigits (n + 1) n

/-- Canonical decimal text of an integer, models Python `str(int)`. -/
def intStr : Int → Str
  | Int.ofNat n => natStr n
  | Int.negSucc n => '-' :: natStr (n + 1)

/--
Document-model values: every Python value that flows through the type
dispatcher `ser` (libsea.py lines 66-91) in this program.  The `py*`
constructors are native Python values dispatched to wrapper classes; the
remaining constructors are the `Element` subclasses themselves.  Python
dicts and the keyword sequences of `Tuple` are represented by parallel
key/value lists to keep the recursion structural.
-/
inductive PV where
  | pyStr (s : Str)
  | pyInt (n : Int)
  | pyFloat (text : Str)
  | pyList (xs : List PV)
  | pyDict (keys : List Str) (vals : List PV)
  | pyTuple (names : List Str) (vals : List PV)
  | pyNone
  | value (s : Str)
  | string (s : Str)
  | bool (b : Bool)
  | ident (s : Str)
  | double (text : Str)
  | integer (n : Int)
  | tuple (names : List Str) (vals : List PV)
  | list (xs : List PV)
  | object (keys : List Str) (vals : List PV)

instance : Inhabited PV := ⟨.pyNone⟩

/-- Models `Element._label` (lines 43-47). -/
def labelStr (name : Str) (labels : Bool) : Str :=
  if labels then '@' :: name ++ ['='] else []

mutual

/-- The type dispatcher `ser` (lines 66-91) combined with each
`Element.serialize` method, at indent 0 (indentation is applied by the
`indentable` wrapper after serialization, see `serInd`).  The bodies of
`List.serialize`, `Tuple.serialize` and `Object.serialize` are inlined
here so the recursion stays structural; `serList`, `serTuple` and
`serObject` below restate them. -/
def ser (labels : Bool) : PV → Str
  | .pyStr s => stringSer s
  | .pyInt n => intStr n
  | .pyFloat text => text
  | .pyList xs =>
    '[' :: '\n' :: joinWith (',' :: ['\n']) (serListItems labels xs) ++ '\n' :: [']']
  | .pyDict keys vals => '\x7b' :: '\n' :: serObjectBody labels keys vals ++ ['\x7d']
  | .pyTuple names vals =>
    match names with
    | [] => '\x7b' :: joinWith [' '] (serTupleAnon labels vals) ++ ['\x7d']
    | _ :: _ => '\x7b' :: joinWith [' '] (serTupleNamed labels names vals) ++ ['\x7d']
  | .pyNone => []
  | .value s => s
  | .string s => stringSer s
  | .bool b => if b then ['T'] else ['F']
  | .ident s => '$' :: s
  | .double text => text
  | .integer n => intStr n
  | .tuple names vals =>
    match names with
    | [] => '\x7b' :: joinWith [' '] (serTupleAnon labels vals) ++ ['\x7d']
    | _ :: _ => '\x7b' :: joinWith [' '] (serTupleNamed labels names vals) ++ ['\x7d']
  | .list xs =>
    '[' :: '\n' :: joinWith (',' :: ['\n']) (serListItems labels xs) ++ '\n' :: [']']
  | .object keys vals => '\x7b' :: '\n' :: serObjectBody labels keys vals ++ ['\x7d']
  termination_by structural v => v

/-- The elements of a `List`, each rendered through `ser` at indent 4. -/
def serListItems (labels : Bool) : List PV → List Str
  | [] => []
  | x :: xs => indentText (ser labels x) 4 :: serListItems labels xs
  termination_by structural v => v

/-- The members of a named `Tuple`, one per `zip(names, values)` pair. -/
def serTupleNamed (labels : Bool) : List Str → List PV → List Str
  | _, [] => []
  | [], _ :: _ => []
  | nm :: nrest, v :: vrest =>
    (labelStr nm labels ++ ser labels v ++ [';']) :: serTupleNamed labels nrest vrest
  termination_by structural _ v => v

/-- The members of an unnamed `Tuple`. -/
def serTupleAnon (labels : Bool) : List PV → List Str
  | [] => []
  | v :: vrest => (ser labels v ++ [';']) :: serTupleAnon labels vrest
  termination_by structural v => v

/-- The body of an `Object`: one `_indent(label+value+";\n", 4)` chunk per
entry, concatenated. -/
def serObjectBody (labels : Bool) : List Str → List PV → Str
  | _, [] => []
  | [], _ :: _ => []
  | k :: krest, v :: vrest =>
    indentText (labelStr k labels ++ ser labels v ++ ';' :: ['\n']) 4 ++ serObjectBody labels krest vrest
  termination_by structural _ v => v

end

/-- `List.serialize` (lines 155-161). -/
def serList (labels : Bool) (xs : List PV) : Str :=
  '[' :: '\n' :: joinWith (',' :: ['\n']) (serListItems labels xs) ++ '\n' :: [']']

/-- `Tuple.serialize` (lines 141-146). -/
def serTuple (labels : Bool) (names : List Str) (vals : List PV) : Str :=
  match names with
  | [] => '\x7b' :: joinWith [' '] (serTupleAnon labels vals) ++ ['\x7d']
  | _ :: _ => '\x7b' :: joinWith [' '] (serTupleNamed labels names vals) ++ ['\x7d']

/-- `Object.serialize` (lines 167-175). -/
def serObject (labels : Bool) (keys : List Str) (vals : List PV) : Str :=
  '\x7b' :: '\n' :: serObjectBody labels keys vals ++ ['\x7d']

/-- `ser` with an `indent` keyword: serialization followed by `_indent`. -/
def serInd (labels : Bool) (amount : Nat) (v : PV) : Str :=
  indentText (ser labels v) amount

/-- Association-list lookup, models Python dict indexing (first match;
construction keeps keys unique). -/
def dlookup {κ α : Type _} [DecidableEq κ] : List (κ × α) → κ → Option α
  | [], _ => none
  | (k, v) :: rest, key => if k = key then some v else dlookup rest key

/-- Models Python `dict.get(key, default)`. -/
def lookupD {κ α : Type _} [DecidableEq κ] (d : List (κ × α)) (key : κ) (dflt : α) : α :=
  (dlookup d key).getD dflt

/-- Models Python `d[k] = v`: update in place if the key is present,
else append, preserving insertion order. -/
def dictInsert {κ α : Type _} [DecidableEq κ] : List (κ × α) → κ → α → List (κ × α)
  | [], k, v => [(k, v)]
  | (k2, v2) :: rest, k, v =>
    if k2 = k then (k2, v) :: rest else (k2, v2) :: dictInsert rest k v

/-- The key sequence resulting from one `d[k] = ...` on a dict with key
sequence `ks`. -/
def keyInsert {κ : Type _} [DecidableEq κ] (ks : List κ) (k : κ) : List κ :=
  if k ∈ ks then ks else ks ++ [k]

/-- An external edge handle: a source node, a destination node, and the
edge's named attributes (`edge[0]`, `edge[1]`, `edge.attr`). -/
structure Edge (ν : Type _) where
  src : ν
  dst : ν
  attr : List (Str × Str)
deriving DecidableEq

/-- The external attributed-graph collaborator consumed by
`Graph.from_graph`: node iteration, edge iteration, per-node attribute
lookup (`node.attr`) and graph-level attributes (`graph.graph_attr`). -/
structure ExtGraph (ν : Type _) where
  nodes : List ν
  edges : List (Edge ν)
  nodeAttr : ν → List (Str × Str)
  graph_attr : List (Str × Str)

/-- One attribute name's buckets inside the `attributes` defaultdict of
`from_graph` (lines 271, 284, 302): maps of element id to stored value. -/
structure Bucket where
  nodeValues : List (Nat × PV)
  linkValues : List (Nat × PV)

instance : Inhabited Bucket := ⟨⟨[], []⟩⟩

/-- One record built by `attributeDefinition()` and filled in lines
311-317; `default` is always `None` and `pathValues` always empty, which
`attrDefPV` renders directly. -/
structure AttrDef where
  name : Str
  type : Str
  nodeValues : List (Nat × PV)
  linkValues : List (Nat × PV)

instance : Inhabited AttrDef := ⟨⟨[], [], [], []⟩⟩

/-- The spanning-tree qualifier record (lines 325-333). -/
structure Qual where
  type : Str
  name : Str
  description : Str
  attributes : List (Nat × Str)

instance : Inhabited Qual := ⟨⟨[], [], [], []⟩⟩

/-- The `Graph` document object: fields assigned by `Graph.__init__`
(lines 202-211) plus `name`/`description` which `from_graph` sets;
`description` is optional because `__init__` never assigns it. -/
structure GraphDoc (ν : Type _) where
  name : Str
  description : Option Str
  nodes : List (ν × Nat)
  links : List (Nat × Nat)
  paths : List PV
  enums : List PV
  attributes : List AttrDef
  attribute_order : List (Str × Nat)
  qualifiers : List Qual

/-- `Graph.__init__` (lines 202-211): every collection empty, no
`description` attribute set. -/
def graphInit (ν : Type _) (name : Str) : GraphDoc ν :=
  ⟨name, none, [], [], [], [], [], [], []⟩

/-- The fatal outcomes of assembly and rendering: the node-collision
`Exception`, a `KeyError` on an edge endpoint, a `KeyError` on a missing
required attribute name, and the `AttributeError` from reading an unset
`description`. -/
inductive Err where
  | nodeCollision
  | missingNode
  | missingAttr (name : Str)
  | missingDescription
deriving DecidableEq

/-- Lines 280-284 and 299-302: the looked-up text value with `"True"` and
`"False"` mapped to `Value('T')` / `Value('F')`, all else stored as-is. -/
def convertAttrValue (v : Str) : PV :=
  if v = ("True").toList then .value (("T").toList)
  else if v = ("False").toList then .value (("F").toList)
  else .pyStr v

/-- The `node_order` dict after the node loop (lines 274-276):
`node_order[node] = i` for each enumerated node. -/
def buildNodeOrderAux {ν : Type _} [DecidableEq ν] (acc : List (ν × Nat)) : List ν → Nat → List (ν × Nat)
  | [], _ => acc
  | n :: rest, i => buildNodeOrderAux (dictInsert acc n i) rest (i + 1)

def buildNodeOrder {ν : Type _} [DecidableEq ν] (nodes : List ν) : List (ν × Nat) :=
  buildNodeOrderAux [] nodes 0

/-- `attributes[an]['nodeValues'][i] = v` (line 284). -/
def bucketAddNode (bks : List (Str × Bucket)) (an : Str) (i : Nat) (v : PV) : List (Str × Bucket) :=
  match bks with
  | [] => [(an, ⟨[(i, v)], []⟩)]
  | (k, bk) :: rest =>
    if k = an then (k, ⟨dictInsert bk.nodeValues i v, bk.linkValues⟩) :: rest
    else (k, bk) :: bucketAddNode rest an i v

/-- `attributes[an]['linkValues'][i] = v` (line 302). -/
def bucketAddLink (bks : List (Str × Bucket)) (an : Str) (i : Nat) (v : PV) : List (Str × Bucket) :=
  match bks with
  | [] => [(an, ⟨[], [(i, v)]⟩)]
  | (k, bk) :: rest =>
    if k = an then (k, ⟨bk.nodeValues, dictInsert bk.linkValues i v⟩) :: rest
    else (k, bk) :: bucketAddLink rest an i v

/-- The attribute loop of one node (lines 279-284). -/
def addNodeAttrs : List (Str × Bucket) → Nat → List (Str × Str) → List (Str × Bucket)
  | bks, _, [] => bks
  | bks, i, (an, v) :: rest => addNodeAttrs (bucketAddNode bks an i (convertAttrValue v)) i rest

/-- The attribute loop of one edge (lines 298-302). -/
def addEdgeAttrs : List (Str × Bucket) → Nat → List (Str × Str) → List (Str × Bucket)
  | bks, _, [] => bks
  | bks, i, (an, v) :: rest => addEdgeAttrs (bucketAddLink bks an i (convertAttrValue v)) i rest

/-- The buckets accumulated by the node loop (lines 275-284). -/
def buildNodeBucketsAux {ν : Type _} (na : ν → List (Str × Str)) (bks : List (Str × Bucket)) : List ν → Nat → List (Str × Bucket)
  | [], _ => bks
  | n :: rest, i => buildNodeBucketsAux na (addNodeAttrs bks i (na n)) rest (i + 1)

def buildNodeBuckets {ν : Type _} (na : ν → List (Str × Str)) (nodes : List ν) : List (Str × Bucket) :=
  buildNodeBucketsAux na [] nodes 0

/-- The edge loop (lines 291-302): id lookups (a missing endpoint is a
`KeyError`), the `links` list, and the link-value buckets. -/
def edgePass {ν : Type _} [DecidableEq ν] (no : List (ν × Nat)) :
    List (Edge ν) → Nat → List (Nat × Nat) → List (Str × Bucket) →
    Except Err (List (Nat × Nat) × List (Str × Bucket))
  | [], _, links, bks => .ok (links, bks)
  | e :: rest, i, links, bks =>
    match dlookup no e.src with
    | none => .error .missingNode
    | some id1 =>
      match dlookup no e.dst with
      | none => .error .missingNode
      | some id2 => edgePass no rest (i + 1) (links ++ [(id1, id2)]) (addEdgeAttrs bks i e.attr)

/-- Lines 308-319: one `AttrDef` per distinct attribute name, in
first-seen order, default type tag `string`. -/
def buildAttrDefs (bks : List (Str × Bucket)) : List AttrDef :=
  bks.map (fun p => ⟨p.1, ("string").toList, p.2.nodeValues, p.2.linkValues⟩)

/-- Line 320: `attribute_order[name] = i`. -/
def buildAttrOrderAux : List (Str × Bucket) → Nat → List (Str × Nat)
  | [], _ => []
  | (k, _) :: rest, i => (k, i) :: buildAttrOrderAux rest (i + 1)

def buildAttrOrder (bks : List (Str × Bucket)) : List (Str × Nat) :=
  buildAttrOrderAux bks 0

/-- Lines 322-323: force the type tag at one attribute index to `bool`.
The index always comes from `attribute_order`, hence is in bounds. -/
def setAttrType (attrs : List AttrDef) (i : Nat) : List AttrDef :=
  match attrs.get? i with
  | some a => attrs.set i ⟨a.name, ("bool").toList, a.nodeValues, a.linkValues⟩
  | none => attrs

/-- `Graph.from_graph` (lines 264-335). -/
def from_graph {ν : Type _} [DecidableEq ν] (g : ExtGraph ν) : Except Err (GraphDoc ν) :=
  let name := lookupD g.graph_attr (("name").toList) (("Graph").toList)
  let desc := lookupD g.graph_attr (("description").toList) (("Generated by libsea.py").toList)
  let node_order := buildNodeOrder g.nodes
  if node_order.length ≠ g.nodes.length then .error .nodeCollision
  else
    match edgePass node_order g.edges 0 [] (buildNodeBuckets g.nodeAttr g.nodes) with
    | .error e => .error e
    | .ok (links, bks) =>
      let attrs := buildAttrDefs bks
      let order := buildAttrOrder bks
      match dlookup order (("root").toList) with
      | none => .error (.missingAttr (("root").toList))
      | some ri =>
        match dlookup order (("tree_link").toList) with
        | none => .error (.missingAttr (("tree_link").toList))
        | some ti =>
          .ok ⟨name, some desc, node_order, links, [], [],
               setAttrType (setAttrType attrs ri) ti, order,
               [⟨("spanning_tree").toList, ("default_spanning_tree").toList,
                 ("Spanning tree for walrus").toList,
                 [(ri, ("root").toList), (ti, ("tree_link").toList)]⟩]⟩

/-- Rendering form of an `attrValue` namedtuple (line 149). -/
def attrValuePV (p : Nat × PV) : PV :=
  .pyTuple [("id").toList, ("value").toList] [.pyInt (Int.ofNat p.1), p.2]

/-- Rendering form of one attribute-definition record: the `OrderedDict`
of `attributeDefinition()` (lines 177-185) as filled by lines 311-317. -/
def attrDefPV (a : AttrDef) : PV :=
  .pyDict
    [("name").toList, ("type").toList, ("default").toList,
     ("nodeValues").toList, ("linkValues").toList, ("pathValues").toList]
    [.ident a.name, .value a.type, .pyNone,
     .pyList (a.nodeValues.map attrValuePV), .pyList (a.linkValues.map attrValuePV), .pyList []]

/-- Rendering form of one qualifier record (lines 325-333); the
`attributes` entries are plain pairs, rendered as unnamed tuples. -/
def qualPV (q : Qual) : PV :=
  .pyDict
    [("type").toList, ("name").toList, ("description").toList, ("attributes").toList]
    [.ident q.type, .ident q.name, .pyStr q.description,
     .pyList (q.attributes.map (fun p => .pyTuple [] [.pyInt (Int.ofNat p.1), .ident p.2]))]

/-- Rendering form of a `Link` namedtuple (line 148). -/
def linkPV (p : Nat × Nat) : PV :=
  .pyTuple [("source").toList, ("destination").toList]
           [.pyInt (Int.ofNat p.1), .pyInt (Int.ofNat p.2)]

/-- `Graph.print_var` (lines 213-215) before its `indentable` wrapper. -/
def printVar (labels : Bool) (name : Str) (v : PV) : Str :=
  labelStr name labels ++ ser labels v ++ ';' :: ['\n']

/-- One comment line of `Graph.serialize`, already indented. -/
def commentLine (comments : Bool) (s : Str) : Str :=
  if comments then indentText s 4 else []

/-- A blank separator line of `Graph.serialize`. -/
def sepLine (comments : Bool) : Str :=
  if comments then ['\n'] else []

/-- One `print_var(name, value, indent=4, labels=labels)` line. -/
def gline (labels : Bool) (name : Str) (v : PV) : Str :=
  indentText (printVar labels name v) 4

/-- The body of `Graph.serialize` (lines 217-262) for a document whose
`description` is present; everything between `"Graph\n{\n"` and the
closing brace. -/
def graphBody {ν : Type _} (labels comments : Bool) (doc : GraphDoc ν) (desc : Str) : Str :=
  commentLine comments (("# Metadata\n").toList) ++
  gline labels (("name").toList) (.pyStr doc.name) ++
  gline labels (("description").toList) (.pyStr desc) ++
  sepLine comments ++
  commentLine comments (("# Lengths\n").toList) ++
  gline labels (("numNodes").toList) (.pyInt (Int.ofNat doc.nodes.length)) ++
  gline labels (("numLinks").toList) (.pyInt (Int.ofNat doc.links.length)) ++
  gline labels (("numPaths").toList) (.pyInt (Int.ofNat doc.paths.length)) ++
  gline labels (("numPathLinks").toList) (.pyInt 0) ++
  sepLine comments ++
  commentLine comments (("# Structural information\n").toList) ++
  gline labels (("links").toList) (.pyList (doc.links.map linkPV)) ++
  gline labels (("paths").toList) (.pyList doc.paths) ++
  sepLine comments ++
  commentLine comments (("# Attributes\n").toList) ++
  gline labels (("enumerations").toList) (.pyList doc.enums) ++
  gline labels (("attributeDefinitions").toList) (.pyList (doc.attributes.map attrDefPV)) ++
  gline labels (("qualifiers").toList) (.pyList (doc.qualifiers.map qualPV)) ++
  sepLine comments ++
  commentLine comments (("# Visualization\n").toList) ++
  gline labels (("filters").toList) .pyNone ++
  gline labels (("selectors").toList) .pyNone ++
  gline labels (("displays").toList) .pyNone ++
  gline labels (("presentations").toList) .pyNone ++
  sepLine comments ++
  commentLine comments (("# Interface\n").toList) ++
  gline labels (("presentationMenus").toList) .pyNone ++
  gline labels (("displayMenus").toList) .pyNone ++
  gline labels (("selectorMenus").toList) .pyNone ++
  gline labels (("filterMenus").toList) .pyNone ++
  gline labels (("attributeMenus").toList) .pyNone

/-- `Graph.serialize` (lines 217-262): reading `self.description` on a
document whose `description` was never assigned is the `AttributeError`
failure; otherwise the fixed section sequence is emitted. -/
def serializeGraph {ν : Type _} (labels comments : Bool) (doc : GraphDoc ν) : Except Err Str :=
  match doc.description with
  | none => .error .missingDescription
  | some desc =>
    .ok (("Graph\n").toList ++ '\x7b' :: '\n' :: graphBody labels comments doc desc ++ ['\x7d'])

/-- A concrete well-formed external graph: three distinct nodes, two
edges, a `root` node attribute and a `tree_link` edge attribute. -/
def exGraph : ExtGraph Nat :=
  ⟨[10, 11, 12],
   [⟨10, 11, [(("tree_link").toList, ("True").toList)]⟩,
    ⟨11, 12, [(("tree_link").toList, ("False").toList)]⟩],
   fun n => [(("root").toList, if n = 10 then ("True").toList else ("False").toList),
             (("label").toList, ("x").toList)],
   [(("name").toList, ("demo").toList)]⟩

/-- A concrete graph with a duplicated node handle. -/
def exGraphDup : ExtGraph Nat :=
  ⟨[10, 11, 10], [], fun _ => [], []⟩

/-- A concrete graph lacking any `tree_link` attribute. -/
def exGraphNoTree : ExtGraph Nat :=
  ⟨[10, 11], [⟨10, 11, []⟩],
   fun _ => [(("root").toList, ("True").toList)], []⟩

/-- Witness for C10 at the concrete example graph. -/
def exDoc : GraphDoc Nat := (from_graph exGraph).toOption.getD (graphInit Nat [])

/-- First-seen enumeration as stored in `node_order`: pairs (node, id)
starting at id `i`. -/
def enumPairs {ν : Type _} : List ν → Nat → List (ν × Nat)
  | [], _ => []
  | n :: rest, i => (n, i) :: enumPairs rest (i + 1)

/-- The `links` that a successful edge pass produces: one (source id,
destination id) pair per edge, in edge-iteration order. -/
def edgeLinks {ν : Type _} [DecidableEq ν] (no : List (ν × Nat)) (edges : List (Edge ν)) :
    List (Nat × Nat) :=
  edges.map (fun e => ((dlookup no e.src).getD 0, (dlookup no e.dst).getD 0))

/-- The buckets after the edge loop, independent of the id lookups. -/
def edgeBucketsFold {ν : Type _} : List (Edge ν) → Nat → List (Str × Bucket) → List (Str × Bucket)
  | [], _, bks => bks
  | e :: rest, i, bks => edgeBucketsFold rest (i + 1) (addEdgeAttrs bks i e.attr)

/-- An attribute name is "discovered" when some node or some edge of the
external graph carries it. -/
def hasAttrName {ν : Type _} (g : ExtGraph ν) (an : Str) : Prop :=
  (∃ n ∈ g.nodes, an ∈ (g.nodeAttr n).map Prod.fst) ∨
  (∃ e ∈ g.edges, an ∈ e.attr.map Prod.fst)

/-- The buckets at the end of both scans of a successful assembly. -/
def finalBuckets {ν : Type _} (g : ExtGraph ν) : List (Str × Bucket) :=
  edgeBucketsFold g.edges 0 (buildNodeBuckets g.nodeAttr g.nodes)

/-- The stored node-value of attribute `an` at element id `key`:
`attributes[an]['nodeValues'][key]`. -/
def nodeVal (bks : List (Str × Bucket)) (an : Str) (key : Nat) : Option PV :=
  match dlookup bks an with
  | some bk => dlookup bk.nodeValues key
  | none => none

/-- The stored link-value of attribute `an` at element id `key`:
`attributes[an]['linkValues'][key]`. -/
def linkVal (bks : List (Str × Bucket)) (an : Str) (key : Nat) : Option PV :=
  match dlookup bks an with
  | some bk => dlookup bk.linkValues key
  | none => none

/-- The rendering contract of every document node: no leading newline, no
trailing newline, and the text does not end in the record terminator. -/
def rendersClean (s : Str) : Prop :=
  s.head? ≠ some '\n' ∧ s.getLast? ≠ some '\n' ∧ s.getLast? ≠ some ';'

/-- The characters Python `str` can produce for a float (digits, sign,
point, exponent marker, and the letters of `inf`/`nan`). -/
def floatChars : Str := ("0123456789.+-einfa").toList

theorem escape_wellEscaped (s : Str) : wellEscaped (escape s) = true := by
  induction s with
  | nil => rfl
  | cons c rest ih =>
    by_cases hc : isSpecial c = true
    · simp only [escape, hc, if_pos]
      cases h : escape rest with
      | nil => simp [wellEscaped, hc]
      | cons d ds => simp [wellEscaped, hc, ← h, ih]
    · have hcb : c ≠ '\\' := by
        intro h; rw [h] at hc; simp [isSpecial] at hc
      simp only [escape, hc, if_neg, Bool.false_eq_true, not_false_iff]
      cases h : escape rest with
      | nil => simp [wellEscaped, hc]
      | cons d ds =>
        have hc' : isSpecial c = false := by simpa using hc
        simp only [wellEscaped, if_neg hcb]
        rw [← h, ih, hc']
        rfl

theorem unescape_escape (s : Str) : unescape (escape s) = s := by
  induction s with
  | nil => rfl
  | cons c rest ih =>
    by_cases hc : isSpecial c = true
    · simp [escape, hc, unescape, ih]
    · have hcb : c ≠ '\\' := by
        intro h; rw [h] at hc; simp [isSpecial] at hc
      simp only [escape, hc, if_neg, Bool.false_eq_true, not_false_iff]
      cases h : escape rest with
      | nil =>
        have : rest = [] := by
          cases rest with
          | nil => rfl
          | cons d ds =>
            simp only [escape] at h
            split at h <;> simp_all
        simp [this, unescape]
      | cons d ds => rw [unescape, if_neg hcb, ← h, ih]

theorem stringInit_of_no_ctrl (s : Str) (h1 : '\n' ∉ s) (h2 : '\r' ∉ s) :
    stringInit s = s := by
  induction s with
  | nil => rfl
  | cons c rest ih =>
    simp only [List.mem_cons, not_or] at h1 h2
    have hc1 : c ≠ '\n' := fun h => h1.1 h.symm
    have hc2 : c ≠ '\r' := fun h => h2.1 h.symm
    have hn : normCR (c :: rest) = c :: normCR rest := by
      simp [normCR, hc2]
    have ihr := ih h1.2 h2.2
    simp only [stringInit] at ihr ⊢
    rw [hn, normLF]
    simp [hc1, ihr]

theorem ser_list (labels : Bool) (xs : List PV) :
    ser labels (.list xs) = serList labels xs := rfl

theorem ser_tuple (labels : Bool) (names : List Str) (vals : List PV) :
    ser labels (.tuple names vals) = serTuple labels names vals := by
  cases names <;> rfl

theorem ser_object (labels : Bool) (keys : List Str) (vals : List PV) :
    ser labels (.object keys vals) = serObject labels keys vals := rfl

theorem splitNL_ne_nil (s : Str) : splitNL s ≠ [] := by
  cases s with
  | nil => simp [splitNL]
  | cons c rest =>
    simp only [splitNL]
    split <;> simp

theorem splitNL_no_newline (s : Str) : ∀ l ∈ splitNL s, '\n' ∉ l := by
  induction s with
  | nil => intro l hl; simp [splitNL] at hl; simp [hl]
  | cons c rest ih =>
    intro l hl
    simp only [splitNL] at hl
    by_cases hc : c = '\n'
    · rw [if_pos hc] at hl
      rcases List.mem_cons.mp hl with h | h
      · simp [h]
      · exact ih l h
    · rw [if_neg hc] at hl
      rcases List.mem_cons.mp hl with h | h
      · subst h
        intro hmem
        rcases List.mem_cons.mp hmem with h | h
        · exact hc h.symm
        · rcases hs : splitNL rest with _ | ⟨l0, ls⟩
          · exact (splitNL_ne_nil rest hs).elim
          · rw [hs] at h
            simp only [List.headD_cons] at h
            exact ih l0 (by simp [hs]) h
      · rcases hs : splitNL rest with _ | ⟨l0, ls⟩
        · exact (splitNL_ne_nil rest hs).elim
        · rw [hs] at h
          simp only [List.tail_cons] at h
          exact ih l (by simp [hs, h])

theorem splitNL_of_no_newline (s : Str) (h : '\n' ∉ s) : splitNL s = [s] := by
  induction s with
  | nil => rfl
  | cons c rest ih =>
    simp only [List.mem_cons, not_or] at h
    have hc : c ≠ '\n' := fun hh => h.1 hh.symm
    simp only [splitNL, if_neg hc, ih h.2]
    rfl

theorem splitNL_append_newline (l t : Str) (h : '\n' ∉ l) :
    splitNL (l ++ '\n' :: t) = l :: splitNL t := by
  induction l with
  | nil => simp [splitNL]
  | cons c rest ih =>
    simp only [List.mem_cons, not_or] at h
    have hc : c ≠ '\n' := fun hh => h.1 hh.symm
    simp only [List.cons_append, splitNL, if_neg hc, List.append_eq, ih h.2]
    rfl

theorem splitNL_joinNL (ls : List Str) (hne : ls ≠ [])
    (h : ∀ l ∈ ls, '\n' ∉ l) : splitNL (joinNL ls) = ls := by
  induction ls with
  | nil => exact absurd rfl hne
  | cons l rest ih =>
    cases rest with
    | nil =>
      simp only [joinNL, joinWith]
      exact splitNL_of_no_newline l (h l (by simp))
    | cons l2 rest2 =>
      have hl : '\n' ∉ l := h l (by simp)
      have : joinNL (l :: l2 :: rest2) = l ++ '\n' :: joinNL (l2 :: rest2) := by
        simp [joinNL, joinWith]
      rw [this, splitNL_append_newline l _ hl,
          ih (by simp) (fun x hx => h x (List.mem_cons_of_mem l hx))]

theorem mem_spaces (n : Nat) (c : Char) (h : c ∈ spaces n) : c = ' ' := by
  induction n with
  | zero => simp [spaces] at h
  | succ k ih =>
    rcases List.mem_cons.mp h with h | h
    · exact h
    · exact ih h

/-- C6: applying indentation prefixes exactly `indent` spaces to every
non-empty line of the text and leaves blank lines completely unchanged;
with indent 0 the text is returned unchanged.  Stated as: the lines of the
indented text are exactly the lines of the original text, mapped by
"prefix `indent` spaces unless blank". -/
theorem c6_indentation (s : Str) (n : Nat) :
    splitNL (indentText s n) =
      (splitNL s).map (fun line => if line.isEmpty then line else spaces n ++ line) ∧
    indentText s 0 = s := by
  constructor
  · by_cases hn : n = 0
    · subst hn
      have hmap : ∀ ls : List Str,
          ls.map (fun line => if line.isEmpty then line else spaces 0 ++ line) = ls := by
        intro ls
        induction ls with
        | nil => rfl
        | cons x rest ih =>
          by_cases hx : x.isEmpty <;> simp [hx, spaces, ih]
      rw [indentText, if_pos rfl, hmap]
    · rw [indentText, if_neg hn]
      apply splitNL_joinNL
      · intro hmap
        exact splitNL_ne_nil s (List.map_eq_nil_iff.mp hmap)
      · intro l hl
        rcases List.mem_map.mp hl with ⟨l0, hl0, rfl⟩
        by_cases he : l0.isEmpty
        · simp only [if_pos he]
          exact splitNL_no_newline s l0 hl0
        · simp only [if_neg he]
          intro hmem
          rcases List.mem_append.mp hmem with h | h
          · exact absurd (mem_spaces n _ h) (by decide)
          · exact splitNL_no_newline s l0 hl0 h
  · simp [indentText]

/-- C1 (counterexample): for the one-character input consisting of a raw
newline, the rendered scalar is `"\\n"` — the newline is first rewritten by
the constructor to the two characters backslash-`n` and the backslash is
then escaped again by the render pass, so the occurrence carries two
leading backslashes, not exactly one; the rendering is not a single
escaping pass over the input. -/
theorem c1_counterexample :
    stringSer ['\n'] = ['"', '\\', '\\', 'n', '"'] ∧
    ¬ escapedSinglePass ['\n'] (stringSer ['\n']) := by
  refine ⟨rfl, fun h => ?_⟩
  simp only [escapedSinglePass] at h
  exact absurd h (by decide)

/-- C1 (amended): for every text input containing any of the special
characters, the rendered scalar is wrapped in double quotes and its
interior is produced by a single escaping pass over the
constructor-normalized value (newline and carriage return having first
been rewritten to the literal sequences `\n`/`\r`): every special
character in the interior carries exactly one leading backslash, no
unescaped occurrence remains, and the pass is decodable; when the input
contains no newline and no carriage return the interior is exactly the
single-pass escape of the raw input. -/
theorem c1_string_escaping (s : Str) (hs : ∃ c ∈ s, isSpecial c = true) :
    (stringSer s).head? = some '"' ∧
    (stringSer s).getLast? = some '"' ∧
    stringSer s = '"' :: escape (stringInit s) ++ ['"'] ∧
    wellEscaped (escape (stringInit s)) = true ∧
    unescape (escape (stringInit s)) = stringInit s ∧
    ('\n' ∉ s → '\r' ∉ s → stringSer s = '"' :: escape s ++ ['"']) := by
  refine ⟨rfl, ?_, rfl, escape_wellEscaped _, unescape_escape _, ?_⟩
  · show ('"' :: (escape (stringInit s) ++ ['"'])).getLast? = some '"'
    rw [← List.cons_append, List.getLast?_concat]
  · intro h1 h2
    rw [stringSer, stringInit_of_no_ctrl s h1 h2]

/-- Witness for C1: the input `|` contains a special character; its
rendering is `"\|"`. -/
theorem c1_string_escaping_witness :
    (stringSer ['|']).head? = some '"' ∧
    (stringSer ['|']).getLast? = some '"' ∧
    stringSer ['|'] = '"' :: escape (stringInit ['|']) ++ ['"'] ∧
    wellEscaped (escape (stringInit ['|'])) = true ∧
    unescape (escape (stringInit ['|'])) = stringInit ['|'] ∧
    ('\n' ∉ ['|'] → '\r' ∉ ['|'] → stringSer ['|'] = '"' :: escape ['|'] ++ ['"']) :=
  c1_string_escaping ['|'] (by decide)

theorem serListItems_eq_map (labels : Bool) (xs : List PV) :
    serListItems labels xs = xs.map (fun x => indentText (ser labels x) 4) := by
  induction xs with
  | nil => rfl
  | cons x rest ih => simp [serListItems, ih]

/-- C8: a List node always renders multi-line: each element is dispatched
through `ser`, rendered at indent 4, elements are joined by `,\n`, and the
whole is wrapped in `[\n` and `\n]`; in particular `[1,2,3]` renders
exactly as the claim states, whether given as a native Python list of ints
or as a `List` of `Integer` elements. -/
theorem c8_list_rendering :
    (∀ (labels : Bool) (xs : List PV),
      ser labels (.list xs) =
        '[' :: '\n' ::
          joinWith (',' :: ['\n']) (xs.map (fun x => indentText (ser labels x) 4)) ++
          '\n' :: [']']) ∧
    ser false (.pyList [.pyInt 1, .pyInt 2, .pyInt 3]) = ("[\n    1,\n    2,\n    3\n]").toList ∧
    ser false (.list [.integer 1, .integer 2, .integer 3]) = ("[\n    1,\n    2,\n    3\n]").toList := by
  refine ⟨fun labels xs => ?_, rfl, rfl⟩
  rw [ser_list, serList, serListItems_eq_map]

theorem from_graph_ok_elim {ν : Type _} [DecidableEq ν] (g : ExtGraph ν) (doc : GraphDoc ν)
    (h : from_graph g = .ok doc) :
    ∃ links bks ri ti,
      (buildNodeOrder g.nodes).length = g.nodes.length ∧
      edgePass (buildNodeOrder g.nodes) g.edges 0 [] (buildNodeBuckets g.nodeAttr g.nodes) =
        .ok (links, bks) ∧
      dlookup (buildAttrOrder bks) (("root").toList) = some ri ∧
      dlookup (buildAttrOrder bks) (("tree_link").toList) = some ti ∧
      doc = ⟨lookupD g.graph_attr (("name").toList) (("Graph").toList),
             some (lookupD g.graph_attr (("description").toList)
                     (("Generated by libsea.py").toList)),
             buildNodeOrder g.nodes, links, [], [],
             setAttrType (setAttrType (buildAttrDefs bks) ri) ti,
             buildAttrOrder bks,
             [⟨("spanning_tree").toList, ("default_spanning_tree").toList,
               ("Spanning tree for walrus").toList,
               [(ri, ("root").toList), (ti, ("tree_link").toList)]⟩]⟩ := by
  unfold from_graph at h
  dsimp only [] at h
  split at h
  · exact absurd h (by simp)
  · split at h
    · exact absurd h (by simp)
    · rename_i links bks heq
      split at h
      · exact absurd h (by simp)
      · rename_i ri hri
        split at h
        · exact absurd h (by simp)
        · rename_i ti hti
          refine ⟨links, bks, ri, ti, by omega, heq, hri, hti, ?_⟩
          cases h
          rfl

/-- C10: an empty List node renders as `[\n\n]`, a blank line between the
brackets; every document assembled by `from_graph` has an empty `paths`
field, and its `@paths=` line (rendered through `print_var` at indent 4)
is exactly the blank-line block, the blank line left unindented. -/
theorem c10_empty_list (ν : Type) (inst : DecidableEq ν) (g : ExtGraph ν) (doc : GraphDoc ν)
    (hok : from_graph g = .ok doc) :
    ser false (.list []) = ("[\n\n]").toList ∧
    doc.paths = [] ∧
    indentText (printVar true (("paths").toList) (.pyList doc.paths)) 4 =
      ("    @paths=[\n\n    ];\n").toList := by
  obtain ⟨links, bks, ri, ti, _, _, _, _, hdoc⟩ := from_graph_ok_elim g doc hok
  have hpaths : doc.paths = [] := by rw [hdoc]
  exact ⟨rfl, hpaths, by rw [hpaths]; rfl⟩

theorem c10_empty_list_witness :
    ser false (.list []) = ("[\n\n]").toList ∧
    exDoc.paths = [] ∧
    indentText (printVar true (("paths").toList) (.pyList exDoc.paths)) 4 =
      ("    @paths=[\n\n    ];\n").toList :=
  c10_empty_list Nat inferInstance exGraph exDoc rfl

/-- C9: the base constructor `Graph.__init__` never assigns `description`,
and `Graph.serialize` reads it unconditionally, so rendering a
base-constructed document fails with the attribute-lookup error; a
document produced by `from_graph` always has `description` set to the
graph-level attribute (default `"Generated by libsea.py"`) and renders
without that failure. -/
theorem c9_description (ν : Type) (inst : DecidableEq ν) (name : Str) (labels comments : Bool)
    (g : ExtGraph ν) (doc : GraphDoc ν) (hok : from_graph g = .ok doc) :
    (graphInit ν name).description = none ∧
    serializeGraph labels comments (graphInit ν name) = .error .missingDescription ∧
    doc.description =
      some (lookupD g.graph_attr (("description").toList) (("Generated by libsea.py").toList)) ∧
    ∃ out, serializeGraph labels comments doc = .ok out := by
  obtain ⟨links, bks, ri, ti, _, _, _, _, hdoc⟩ := from_graph_ok_elim g doc hok
  have hdesc : doc.description =
      some (lookupD g.graph_attr (("description").toList) (("Generated by libsea.py").toList)) := by
    rw [hdoc]
  refine ⟨rfl, rfl, hdesc, ?_⟩
  rw [serializeGraph, hdesc]
  exact ⟨_, rfl⟩

/-- Witness for C9 at the concrete example graph. -/
theorem c9_description_witness :
    (graphInit Nat ['G']).description = none ∧
    serializeGraph true true (graphInit Nat ['G']) = .error .missingDescription ∧
    exDoc.description =
      some (lookupD exGraph.graph_attr (("description").toList) (("Generated by libsea.py").toList)) ∧
    ∃ out, serializeGraph true true exDoc = .ok out :=
  c9_description Nat inferInstance ['G'] true true exGraph exDoc rfl

theorem keys_dictInsert {κ α : Type _} [DecidableEq κ] (d : List (κ × α)) (k : κ) (v : α) :
    (dictInsert d k v).map Prod.fst = keyInsert (d.map Prod.fst) k := by
  induction d with
  | nil => simp [dictInsert, keyInsert]
  | cons p rest ih =>
    obtain ⟨k2, v2⟩ := p
    by_cases hk : k2 = k
    · subst hk
      simp [dictInsert, keyInsert]
    · have hkk : ¬ k = k2 := fun h => hk h.symm
      simp only [dictInsert, if_neg hk, List.map_cons, ih]
      unfold keyInsert
      by_cases hm : k ∈ rest.map Prod.fst
      · rw [if_pos hm, if_pos (List.mem_cons.mpr (Or.inr hm))]
      · rw [if_neg hm, if_neg (by simp [hkk, hm]), List.cons_append]

theorem mem_keyInsert {κ : Type _} [DecidableEq κ] (ks : List κ) (k a : κ) :
    a ∈ keyInsert ks k ↔ a ∈ ks ∨ a = k := by
  unfold keyInsert
  by_cases hm : k ∈ ks
  · simp only [if_pos hm]
    constructor
    · exact Or.inl
    · rintro (h | rfl)
      · exact h
      · exact hm
  · simp [if_neg hm]

theorem length_keyInsert {κ : Type _} [DecidableEq κ] (ks : List κ) (k : κ) :
    (keyInsert ks k).length = if k ∈ ks then ks.length else ks.length + 1 := by
  unfold keyInsert
  by_cases hm : k ∈ ks <;> simp [hm]

theorem keys_buildNodeOrderAux {ν : Type _} [DecidableEq ν] (l : List ν) :
    ∀ (acc : List (ν × Nat)) (i : Nat),
      (buildNodeOrderAux acc l i).map Prod.fst = l.foldl keyInsert (acc.map Prod.fst) := by
  induction l with
  | nil => intro acc i; rfl
  | cons n rest ih =>
    intro acc i
    simp only [buildNodeOrderAux, List.foldl_cons, ih, keys_dictInsert]

theorem keyFold_le {κ : Type _} [DecidableEq κ] (l : List κ) :
    ∀ ks : List κ, (l.foldl keyInsert ks).length ≤ ks.length + l.length := by
  induction l with
  | nil => intro ks; simp
  | cons c rest ih =>
    intro ks
    simp only [List.foldl_cons, List.length_cons]
    calc (rest.foldl keyInsert (keyInsert ks c)).length
        ≤ (keyInsert ks c).length + rest.length := ih _
      _ ≤ ks.length + (rest.length + 1) := by
          rw [length_keyInsert]
          by_cases hm : c ∈ ks <;> simp [hm] <;> omega

theorem keyFold_lt {κ : Type _} [DecidableEq κ] (l : List κ) :
    ∀ ks : List κ, (¬ l.Nodup ∨ ∃ x ∈ l, x ∈ ks) →
      (l.foldl keyInsert ks).length < ks.length + l.length := by
  induction l with
  | nil =>
    intro ks h
    rcases h with h | ⟨x, hx, _⟩
    · exact absurd List.nodup_nil h
    · simp at hx
  | cons c rest ih =>
    intro ks h
    simp only [List.foldl_cons, List.length_cons]
    by_cases hm : c ∈ ks
    · have : keyInsert ks c = ks := by simp [keyInsert, hm]
      rw [this]
      calc (rest.foldl keyInsert ks).length ≤ ks.length + rest.length := keyFold_le rest ks
        _ < ks.length + (rest.length + 1) := by omega
    · have hlen : (keyInsert ks c).length = ks.length + 1 := by
        rw [length_keyInsert, if_neg hm]
      have hnext : ¬ rest.Nodup ∨ ∃ x ∈ rest, x ∈ keyInsert ks c := by
        rcases h with h | ⟨x, hx, hxks⟩
        · rw [List.nodup_cons] at h
          push_neg at h
          by_cases hcr : c ∈ rest
          · exact Or.inr ⟨c, hcr, by simp [mem_keyInsert]⟩
          · exact Or.inl (h hcr)
        · rcases List.mem_cons.mp hx with rfl | hxr
          · exact absurd hxks hm
          · exact Or.inr ⟨x, hxr, by simp [mem_keyInsert, hxks]⟩
      calc (rest.foldl keyInsert (keyInsert ks c)).length
          < (keyInsert ks c).length + rest.length := ih _ hnext
        _ = ks.length + (rest.length + 1) := by omega

theorem dictInsert_fresh {κ α : Type _} [DecidableEq κ] (d : List (κ × α)) (k : κ) (v : α)
    (h : k ∉ d.map Prod.fst) : dictInsert d k v = d ++ [(k, v)] := by
  induction d with
  | nil => rfl
  | cons p rest ih =>
    obtain ⟨k2, v2⟩ := p
    simp only [List.map_cons, List.mem_cons, not_or] at h
    have hne : ¬ k2 = k := fun hh => h.1 hh.symm
    simp only [dictInsert, if_neg hne, List.cons_append, List.cons.injEq, true_and]
    exact ih h.2

theorem buildNodeOrderAux_of_nodup {ν : Type _} [DecidableEq ν] (l : List ν) :
    ∀ (acc : List (ν × Nat)) (i : Nat), l.Nodup →
      (∀ n ∈ l, n ∉ acc.map Prod.fst) →
      buildNodeOrderAux acc l i = acc ++ enumPairs l i := by
  induction l with
  | nil => intro acc i _ _; simp [buildNodeOrderAux, enumPairs]
  | cons n rest ih =>
    intro acc i hnd hfresh
    have hn : n ∉ acc.map Prod.fst := hfresh n (by simp)
    have hins : dictInsert acc n i = acc ++ [(n, i)] := dictInsert_fresh acc n i hn
    rw [List.nodup_cons] at hnd
    simp only [buildNodeOrderAux, hins]
    rw [ih _ _ hnd.2 ?_, enumPairs, List.append_assoc]
    · rfl
    · intro m hm
      simp only [List.map_append, List.mem_append, not_or]
      refine ⟨fun hc => hfresh m (List.mem_cons_of_mem n hm) hc, ?_⟩
      simp only [List.map_cons, List.map_nil, List.mem_singleton]
      intro hc
      exact hnd.1 (hc ▸ hm)

theorem buildNodeOrder_of_nodup {ν : Type _} [DecidableEq ν] (l : List ν) (h : l.Nodup) :
    buildNodeOrder l = enumPairs l 0 := by
  rw [buildNodeOrder, buildNodeOrderAux_of_nodup l [] 0 h (by simp)]
  rfl

theorem enumPairs_length {ν : Type _} (l : List ν) : ∀ i, (enumPairs l i).length = l.length := by
  induction l with
  | nil => intro i; rfl
  | cons n rest ih => intro i; simp [enumPairs, ih]

theorem buildNodeOrder_length_lt {ν : Type _} [DecidableEq ν] (l : List ν) (h : ¬ l.Nodup) :
    (buildNodeOrder l).length < l.length := by
  have := keyFold_lt l ([] : List ν) (Or.inl h)
  have hkeys := keys_buildNodeOrderAux l ([] : List (ν × Nat)) 0
  have hlen : (buildNodeOrder l).length = ((buildNodeOrder l).map Prod.fst).length := by
    simp
  rw [hlen, buildNodeOrder, hkeys]
  simpa using this

/-- C4: each node receives a dense integer id in first-seen iteration
order, and a node count inconsistent with the number of distinct
identities (a duplicated handle) makes assembly fail with the
node-collision error instead of returning a document. -/
theorem c4_node_identity (ν : Type) (inst : DecidableEq ν) (g : ExtGraph ν) :
    (¬ g.nodes.Nodup → from_graph g = .error .nodeCollision) ∧
    (∀ doc : GraphDoc ν, from_graph g = .ok doc → doc.nodes = enumPairs g.nodes 0) := by
  constructor
  · intro hnd
    have hlt := buildNodeOrder_length_lt g.nodes hnd
    unfold from_graph
    dsimp only []
    rw [if_pos (by omega)]
  · intro doc hok
    obtain ⟨links, bks, ri, ti, hlen, _, _, _, hdoc⟩ := from_graph_ok_elim g doc hok
    have hnd : g.nodes.Nodup := by
      by_contra hc
      have := buildNodeOrder_length_lt g.nodes hc
      omega
    rw [hdoc]
    exact buildNodeOrder_of_nodup g.nodes hnd

/-- Witness for C4: the duplicated-handle graph fails with the collision
error, and the well-formed example graph receives ids 0, 1, 2. -/
theorem c4_node_identity_witness :
    from_graph exGraphDup = .error .nodeCollision ∧ exDoc.nodes = enumPairs exGraph.nodes 0 :=
  ⟨(c4_node_identity Nat inferInstance exGraphDup).1 (by decide),
   (c4_node_identity Nat inferInstance exGraph).2 exDoc rfl⟩

theorem dlookup_isSome_iff {κ α : Type _} [DecidableEq κ] (d : List (κ × α)) (k : κ) :
    (dlookup d k).isSome = true ↔ k ∈ d.map Prod.fst := by
  induction d with
  | nil => simp [dlookup]
  | cons p rest ih =>
    obtain ⟨k2, v2⟩ := p
    by_cases hk : k2 = k
    · subst hk
      simp [dlookup]
    · have : ¬ k = k2 := fun h => hk h.symm
      simp [dlookup, if_neg hk, ih, this]

theorem dlookup_mem {κ α : Type _} [DecidableEq κ] (d : List (κ × α)) (k : κ) (v : α)
    (h : dlookup d k = some v) : (k, v) ∈ d := by
  induction d with
  | nil => simp [dlookup] at h
  | cons p rest ih =>
    obtain ⟨k2, v2⟩ := p
    by_cases hk : k2 = k
    · subst hk
      have hv : v2 = v := by simpa [dlookup] using h
      subst hv
      exact List.mem_cons_self _ _
    · rw [dlookup, if_neg hk] at h
      exact List.mem_cons_of_mem _ (ih h)

theorem keys_bucketAddNode (bks : List (Str × Bucket)) (an : Str) (i : Nat) (v : PV) :
    (bucketAddNode bks an i v).map Prod.fst = keyInsert (bks.map Prod.fst) an := by
  induction bks with
  | nil => simp [bucketAddNode, keyInsert]
  | cons p rest ih =>
    obtain ⟨k, bk⟩ := p
    by_cases hk : k = an
    · subst hk
      simp [bucketAddNode, keyInsert]
    · have hkk : ¬ an = k := fun h => hk h.symm
      simp only [bucketAddNode, if_neg hk, List.map_cons, ih]
      unfold keyInsert
      by_cases hm : an ∈ rest.map Prod.fst
      · rw [if_pos hm, if_pos (List.mem_cons.mpr (Or.inr hm))]
      · rw [if_neg hm, if_neg (by simp [hkk, hm]), List.cons_append]

theorem keys_bucketAddLink (bks : List (Str × Bucket)) (an : Str) (i : Nat) (v : PV) :
    (bucketAddLink bks an i v).map Prod.fst = keyInsert (bks.map Prod.fst) an := by
  induction bks with
  | nil => simp [bucketAddLink, keyInsert]
  | cons p rest ih =>
    obtain ⟨k, bk⟩ := p
    by_cases hk : k = an
    · subst hk
      simp [bucketAddLink, keyInsert]
    · have hkk : ¬ an = k := fun h => hk h.symm
      simp only [bucketAddLink, if_neg hk, List.map_cons, ih]
      unfold keyInsert
      by_cases hm : an ∈ rest.map Prod.fst
      · rw [if_pos hm, if_pos (List.mem_cons.mpr (Or.inr hm))]
      · rw [if_neg hm, if_neg (by simp [hkk, hm]), List.cons_append]

theorem mem_keys_addNodeAttrs (attrs : List (Str × Str)) :
    ∀ (bks : List (Str × Bucket)) (i : Nat) (an : Str),
      an ∈ (addNodeAttrs bks i attrs).map Prod.fst ↔
        an ∈ bks.map Prod.fst ∨ an ∈ attrs.map Prod.fst := by
  induction attrs with
  | nil => intro bks i an; simp [addNodeAttrs]
  | cons p rest ih =>
    intro bks i an
    obtain ⟨k, v⟩ := p
    rw [addNodeAttrs, ih, keys_bucketAddNode, mem_keyInsert]
    simp only [List.map_cons, List.mem_cons]
    tauto

theorem mem_keys_addEdgeAttrs (attrs : List (Str × Str)) :
    ∀ (bks : List (Str × Bucket)) (i : Nat) (an : Str),
      an ∈ (addEdgeAttrs bks i attrs).map Prod.fst ↔
        an ∈ bks.map Prod.fst ∨ an ∈ attrs.map Prod.fst := by
  induction attrs with
  | nil => intro bks i an; simp [addEdgeAttrs]
  | cons p rest ih =>
    intro bks i an
    obtain ⟨k, v⟩ := p
    rw [addEdgeAttrs, ih, keys_bucketAddLink, mem_keyInsert]
    simp only [List.map_cons, List.mem_cons]
    tauto

theorem mem_keys_buildNodeBucketsAux {ν : Type _} (na : ν → List (Str × Str)) (nodes : List ν) :
    ∀ (bks : List (Str × Bucket)) (i : Nat) (an : Str),
      an ∈ (buildNodeBucketsAux na bks nodes i).map Prod.fst ↔
        an ∈ bks.map Prod.fst ∨ ∃ n ∈ nodes, an ∈ (na n).map Prod.fst := by
  induction nodes with
  | nil => intro bks i an; simp [buildNodeBucketsAux]
  | cons n rest ih =>
    intro bks i an
    rw [buildNodeBucketsAux, ih, mem_keys_addNodeAttrs]
    constructor
    · rintro ((h | h) | ⟨m, hm, hattr⟩)
      · exact Or.inl h
      · exact Or.inr ⟨n, by simp, h⟩
      · exact Or.inr ⟨m, List.mem_cons_of_mem n hm, hattr⟩
    · rintro (h | ⟨m, hm, hattr⟩)
      · exact Or.inl (Or.inl h)
      · rcases List.mem_cons.mp hm with rfl | hmr
        · exact Or.inl (Or.inr hattr)
        · exact Or.inr ⟨m, hmr, hattr⟩

theorem edgePass_buckets {ν : Type _} [DecidableEq ν] (no : List (ν × Nat)) (edges : List (Edge ν)) :
    ∀ (i : Nat) (links links' : List (Nat × Nat)) (bks bks' : List (Str × Bucket)),
      edgePass no edges i links bks = .ok (links', bks') →
      bks' = edgeBucketsFold edges i bks := by
  induction edges with
  | nil =>
    intro i links links' bks bks' h
    simp only [edgePass, Except.ok.injEq, Prod.mk.injEq] at h
    rw [edgeBucketsFold, ← h.2]
  | cons e rest ih =>
    intro i links links' bks bks' h
    rw [edgePass] at h
    rcases h1 : dlookup no e.src with _ | id1
    · rw [h1] at h; exact absurd h (by simp)
    · rw [h1] at h
      rcases h2 : dlookup no e.dst with _ | id2
      · rw [h2] at h; exact absurd h (by simp)
      · rw [h2] at h
        rw [edgeBucketsFold]
        exact ih _ _ _ _ _ h

theorem edgePass_ok {ν : Type _} [DecidableEq ν] (no : List (ν × Nat)) (edges : List (Edge ν))
    (hends : ∀ e ∈ edges, (dlookup no e.src).isSome = true ∧ (dlookup no e.dst).isSome = true) :
    ∀ (i : Nat) (links : List (Nat × Nat)) (bks : List (Str × Bucket)),
      edgePass no edges i links bks = .ok (links ++ edgeLinks no edges, edgeBucketsFold edges i bks) := by
  induction edges with
  | nil => intro i links bks; simp [edgePass, edgeLinks, edgeBucketsFold]
  | cons e rest ih =>
    intro i links bks
    obtain ⟨hsrc, hdst⟩ := hends e (by simp)
    rcases h1 : dlookup no e.src with _ | id1
    · rw [h1] at hsrc; simp at hsrc
    · rcases h2 : dlookup no e.dst with _ | id2
      · rw [h2] at hdst; simp at hdst
      · have hrec := ih (fun e2 he2 => hends e2 (List.mem_cons_of_mem e he2)) (i + 1)
          (links ++ [(id1, id2)]) (addEdgeAttrs bks i e.attr)
        simp only [edgePass, h1, h2, hrec, edgeBucketsFold, edgeLinks, List.map_cons,
          Option.getD_some, List.append_assoc, List.singleton_append]

theorem mem_keys_edgeBucketsFold {ν : Type _} (edges : List (Edge ν)) :
    ∀ (i : Nat) (bks : List (Str × Bucket)) (an : Str),
      an ∈ (edgeBucketsFold edges i bks).map Prod.fst ↔
        an ∈ bks.map Prod.fst ∨ ∃ e ∈ edges, an ∈ e.attr.map Prod.fst := by
  induction edges with
  | nil => intro i bks an; simp [edgeBucketsFold]
  | cons e rest ih =>
    intro i bks an
    rw [edgeBucketsFold, ih, mem_keys_addEdgeAttrs]
    constructor
    · rintro ((h | h) | ⟨m, hm, hattr⟩)
      · exact Or.inl h
      · exact Or.inr ⟨e, by simp, h⟩
      · exact Or.inr ⟨m, List.mem_cons_of_mem e hm, hattr⟩
    · rintro (h | ⟨m, hm, hattr⟩)
      · exact Or.inl (Or.inl h)
      · rcases List.mem_cons.mp hm with rfl | hmr
        · exact Or.inl (Or.inr hattr)
        · exact Or.inr ⟨m, hmr, hattr⟩

theorem mem_keys_finalBuckets {ν : Type _} (g : ExtGraph ν) (an : Str) :
    an ∈ (finalBuckets g).map Prod.fst ↔ hasAttrName g an := by
  rw [finalBuckets, mem_keys_edgeBucketsFold, buildNodeBuckets, mem_keys_buildNodeBucketsAux]
  simp only [List.map_nil, List.not_mem_nil, false_or]
  rfl

theorem keys_buildAttrOrderAux (bks : List (Str × Bucket)) :
    ∀ i : Nat, (buildAttrOrderAux bks i).map Prod.fst = bks.map Prod.fst := by
  induction bks with
  | nil => intro i; rfl
  | cons p rest ih =>
    intro i
    obtain ⟨k, bk⟩ := p
    simp [buildAttrOrderAux, ih]

theorem attrOrder_lookup_get (bks : List (Str × Bucket)) :
    ∀ (i : Nat) (an : Str) (r : Nat), dlookup (buildAttrOrderAux bks i) an = some r →
      ∃ (j : Nat) (bk : Bucket), r = i + j ∧ bks.get? j = some (an, bk) := by
  induction bks with
  | nil => intro i an r h; simp [buildAttrOrderAux, dlookup] at h
  | cons p rest ih =>
    intro i an r h
    obtain ⟨k, bk⟩ := p
    by_cases hk : k = an
    · subst hk
      have hr : i = r := by simpa [buildAttrOrderAux, dlookup] using h
      exact ⟨0, bk, by omega, rfl⟩
    · rw [buildAttrOrderAux, dlookup, if_neg hk] at h
      obtain ⟨j, bk2, hij, hget⟩ := ih (i + 1) an r h
      exact ⟨j + 1, bk2, by omega, by simpa using hget⟩

theorem enumPairs_keys {ν : Type _} (l : List ν) : ∀ i, (enumPairs l i).map Prod.fst = l := by
  induction l with
  | nil => intro i; rfl
  | cons n rest ih => intro i; simp [enumPairs, ih]

theorem from_graph_ok_spec {ν : Type _} [DecidableEq ν] (g : ExtGraph ν)
    (hnd : g.nodes.Nodup)
    (hends : ∀ e ∈ g.edges, e.src ∈ g.nodes ∧ e.dst ∈ g.nodes)
    (hroot : hasAttrName g (("root").toList))
    (htl : hasAttrName g (("tree_link").toList)) :
    ∃ ri ti,
      dlookup (buildAttrOrder (finalBuckets g)) (("root").toList) = some ri ∧
      dlookup (buildAttrOrder (finalBuckets g)) (("tree_link").toList) = some ti ∧
      from_graph g =
        .ok ⟨lookupD g.graph_attr (("name").toList) (("Graph").toList),
             some (lookupD g.graph_attr (("description").toList)
                     (("Generated by libsea.py").toList)),
             buildNodeOrder g.nodes,
             edgeLinks (buildNodeOrder g.nodes) g.edges, [], [],
             setAttrType (setAttrType (buildAttrDefs (finalBuckets g)) ri) ti,
             buildAttrOrder (finalBuckets g),
             [⟨("spanning_tree").toList, ("default_spanning_tree").toList,
               ("Spanning tree for walrus").toList,
               [(ri, ("root").toList), (ti, ("tree_link").toList)]⟩]⟩ := by
  have hlen : (buildNodeOrder g.nodes).length = g.nodes.length := by
    rw [buildNodeOrder_of_nodup g.nodes hnd, enumPairs_length]
  have hkeys : (buildNodeOrder g.nodes).map Prod.fst = g.nodes := by
    rw [buildNodeOrder_of_nodup g.nodes hnd, enumPairs_keys]
  have hends' : ∀ e ∈ g.edges,
      (dlookup (buildNodeOrder g.nodes) e.src).isSome = true ∧
      (dlookup (buildNodeOrder g.nodes) e.dst).isSome = true := by
    intro e he
    obtain ⟨hs, hd⟩ := hends e he
    constructor
    · rw [dlookup_isSome_iff, hkeys]; exact hs
    · rw [dlookup_isSome_iff, hkeys]; exact hd
  have hriS : (dlookup (buildAttrOrder (finalBuckets g)) (("root").toList)).isSome = true := by
    rw [dlookup_isSome_iff, buildAttrOrder, keys_buildAttrOrderAux]
    exact (mem_keys_finalBuckets g _).mpr hroot
  have htiS : (dlookup (buildAttrOrder (finalBuckets g)) (("tree_link").toList)).isSome = true := by
    rw [dlookup_isSome_iff, buildAttrOrder, keys_buildAttrOrderAux]
    exact (mem_keys_finalBuckets g _).mpr htl
  obtain ⟨ri, hri⟩ := Option.isSome_iff_exists.mp hriS
  obtain ⟨ti, hti⟩ := Option.isSome_iff_exists.mp htiS
  refine ⟨ri, ti, hri, hti, ?_⟩
  have hedge := edgePass_ok (buildNodeOrder g.nodes) g.edges hends' 0 []
    (buildNodeBuckets g.nodeAttr g.nodes)
  have hfb : edgeBucketsFold g.edges 0 (buildNodeBuckets g.nodeAttr g.nodes) = finalBuckets g := rfl
  rw [hfb] at hedge
  unfold from_graph
  dsimp only []
  rw [if_neg (by omega)]
  rw [hedge]
  simp only [List.nil_append, hri, hti]

theorem setAttrType_get_self (attrs : List AttrDef) (i : Nat) (a : AttrDef)
    (h : attrs.get? i = some a) :
    (setAttrType attrs i).get? i = some ⟨a.name, ("bool").toList, a.nodeValues, a.linkValues⟩ := by
  obtain ⟨hlt, _⟩ := List.get?_eq_some.mp h
  rw [setAttrType, h]
  exact List.get?_set_eq_of_lt _ hlt

theorem setAttrType_get_ne (attrs : List AttrDef) (i j : Nat) (h : j ≠ i) :
    (setAttrType attrs i).get? j = attrs.get? j := by
  rw [setAttrType]
  cases hg : attrs.get? i
  · rfl
  · exact List.get?_set_ne _ _ (fun hh => h hh.symm)

theorem from_graph_missing_root {ν : Type _} [DecidableEq ν] (g : ExtGraph ν)
    (hnd : g.nodes.Nodup)
    (hends : ∀ e ∈ g.edges, e.src ∈ g.nodes ∧ e.dst ∈ g.nodes)
    (h : dlookup (buildAttrOrder (finalBuckets g)) (("root").toList) = none) :
    from_graph g = .error (.missingAttr (("root").toList)) := by
  have hlen : (buildNodeOrder g.nodes).length = g.nodes.length := by
    rw [buildNodeOrder_of_nodup g.nodes hnd, enumPairs_length]
  have hkeys : (buildNodeOrder g.nodes).map Prod.fst = g.nodes := by
    rw [buildNodeOrder_of_nodup g.nodes hnd, enumPairs_keys]
  have hends' : ∀ e ∈ g.edges,
      (dlookup (buildNodeOrder g.nodes) e.src).isSome = true ∧
      (dlookup (buildNodeOrder g.nodes) e.dst).isSome = true := by
    intro e he
    obtain ⟨hs, hd⟩ := hends e he
    constructor
    · rw [dlookup_isSome_iff, hkeys]; exact hs
    · rw [dlookup_isSome_iff, hkeys]; exact hd
  have hedge := edgePass_ok (buildNodeOrder g.nodes) g.edges hends' 0 []
    (buildNodeBuckets g.nodeAttr g.nodes)
  have hfb : edgeBucketsFold g.edges 0 (buildNodeBuckets g.nodeAttr g.nodes) = finalBuckets g := rfl
  rw [hfb] at hedge
  unfold from_graph
  dsimp only []
  rw [if_neg (by omega), hedge]
  simp only [List.nil_append, h]

theorem from_graph_missing_tree {ν : Type _} [DecidableEq ν] (g : ExtGraph ν)
    (hnd : g.nodes.Nodup)
    (hends : ∀ e ∈ g.edges, e.src ∈ g.nodes ∧ e.dst ∈ g.nodes)
    (ri : Nat)
    (hr : dlookup (buildAttrOrder (finalBuckets g)) (("root").toList) = some ri)
    (h : dlookup (buildAttrOrder (finalBuckets g)) (("tree_link").toList) = none) :
    from_graph g = .error (.missingAttr (("tree_link").toList)) := by
  have hlen : (buildNodeOrder g.nodes).length = g.nodes.length := by
    rw [buildNodeOrder_of_nodup g.nodes hnd, enumPairs_length]
  have hkeys : (buildNodeOrder g.nodes).map Prod.fst = g.nodes := by
    rw [buildNodeOrder_of_nodup g.nodes hnd, enumPairs_keys]
  have hends' : ∀ e ∈ g.edges,
      (dlookup (buildNodeOrder g.nodes) e.src).isSome = true ∧
      (dlookup (buildNodeOrder g.nodes) e.dst).isSome = true := by
    intro e he
    obtain ⟨hs, hd⟩ := hends e he
    constructor
    · rw [dlookup_isSome_iff, hkeys]; exact hs
    · rw [dlookup_isSome_iff, hkeys]; exact hd
  have hedge := edgePass_ok (buildNodeOrder g.nodes) g.edges hends' 0 []
    (buildNodeBuckets g.nodeAttr g.nodes)
  have hfb : edgeBucketsFold g.edges 0 (buildNodeBuckets g.nodeAttr g.nodes) = finalBuckets g := rfl
  rw [hfb] at hedge
  unfold from_graph
  dsimp only []
  rw [if_neg (by omega), hedge]
  simp only [List.nil_append, hr, h]

/-- C3: when the discovered attribute-name set lacks `root`, assembly
fails with the missing-attribute lookup error naming `root` (no document
is returned); when `root` is present but `tree_link` is absent, it fails
naming `tree_link`; when both are present, the two attribute definitions'
type tags are forced to `bool` and exactly one spanning-tree qualifier
referencing their two attribute indices is appended. -/
theorem c3_required_attributes (ν : Type) (inst : DecidableEq ν) (g : ExtGraph ν)
    (hnd : g.nodes.Nodup)
    (hends : ∀ e ∈ g.edges, e.src ∈ g.nodes ∧ e.dst ∈ g.nodes) :
    (¬ hasAttrName g (("root").toList) →
       from_graph g = .error (.missingAttr (("root").toList))) ∧
    (hasAttrName g (("root").toList) → ¬ hasAttrName g (("tree_link").toList) →
       from_graph g = .error (.missingAttr (("tree_link").toList))) ∧
    (hasAttrName g (("root").toList) → hasAttrName g (("tree_link").toList) →
       ∃ (doc : GraphDoc ν) (ri ti : Nat),
         from_graph g = .ok doc ∧
         dlookup doc.attribute_order (("root").toList) = some ri ∧
         dlookup doc.attribute_order (("tree_link").toList) = some ti ∧
         (∃ a, doc.attributes.get? ri = some a ∧
            a.name = ("root").toList ∧ a.type = ("bool").toList) ∧
         (∃ a, doc.attributes.get? ti = some a ∧
            a.name = ("tree_link").toList ∧ a.type = ("bool").toList) ∧
         doc.qualifiers = [⟨("spanning_tree").toList, ("default_spanning_tree").toList,
                           ("Spanning tree for walrus").toList,
                           [(ri, ("root").toList), (ti, ("tree_link").toList)]⟩]) := by
  refine ⟨?_, ?_, ?_⟩
  · intro hno
    apply from_graph_missing_root g hnd hends
    rw [← Option.not_isSome_iff_eq_none]
    intro hS
    rw [dlookup_isSome_iff, buildAttrOrder, keys_buildAttrOrderAux,
        mem_keys_finalBuckets] at hS
    exact hno hS
  · intro hroot hnt
    have hriS : (dlookup (buildAttrOrder (finalBuckets g)) (("root").toList)).isSome = true := by
      rw [dlookup_isSome_iff, buildAttrOrder, keys_buildAttrOrderAux]
      exact (mem_keys_finalBuckets g _).mpr hroot
    obtain ⟨ri, hri⟩ := Option.isSome_iff_exists.mp hriS
    apply from_graph_missing_tree g hnd hends ri hri
    rw [← Option.not_isSome_iff_eq_none]
    intro hS
    rw [dlookup_isSome_iff, buildAttrOrder, keys_buildAttrOrderAux,
        mem_keys_finalBuckets] at hS
    exact hnt hS
  · intro hroot htl
    obtain ⟨ri, ti, hri, hti, hok⟩ := from_graph_ok_spec g hnd hends hroot htl
    obtain ⟨jr, bkr, hjr, hgetr⟩ := attrOrder_lookup_get (finalBuckets g) 0 _ _ hri
    obtain ⟨jt, bkt, hjt, hgett⟩ := attrOrder_lookup_get (finalBuckets g) 0 _ _ hti
    have hjr' : ri = jr := by omega
    have hjt' : ti = jt := by omega
    subst hjr'
    subst hjt'
    have hne : ri ≠ ti := by
      intro hc
      subst hc
      rw [hgetr] at hgett
      have : ("root").toList = ("tree_link").toList := by
        have := Option.some.inj hgett
        exact congrArg Prod.fst this
      exact absurd this (by decide)
    have hget0r : (buildAttrDefs (finalBuckets g)).get? ri =
        some ⟨("root").toList, ("string").toList, bkr.nodeValues, bkr.linkValues⟩ := by
      rw [buildAttrDefs, List.get?_map, hgetr]
      rfl
    have hget0t : (buildAttrDefs (finalBuckets g)).get? ti =
        some ⟨("tree_link").toList, ("string").toList, bkt.nodeValues, bkt.linkValues⟩ := by
      rw [buildAttrDefs, List.get?_map, hgett]
      rfl
    have hget1r : (setAttrType (buildAttrDefs (finalBuckets g)) ri).get? ri =
        some ⟨("root").toList, ("bool").toList, bkr.nodeValues, bkr.linkValues⟩ :=
      setAttrType_get_self _ _ _ hget0r
    have hget1t : (setAttrType (buildAttrDefs (finalBuckets g)) ri).get? ti =
        some ⟨("tree_link").toList, ("string").toList, bkt.nodeValues, bkt.linkValues⟩ := by
      rw [setAttrType_get_ne _ _ _ (fun h => hne h.symm)]
      exact hget0t
    have hget2r : (setAttrType (setAttrType (buildAttrDefs (finalBuckets g)) ri) ti).get? ri =
        some ⟨("root").toList, ("bool").toList, bkr.nodeValues, bkr.linkValues⟩ := by
      rw [setAttrType_get_ne _ _ _ hne]
      exact hget1r
    have hget2t : (setAttrType (setAttrType (buildAttrDefs (finalBuckets g)) ri) ti).get? ti =
        some ⟨("tree_link").toList, ("bool").toList, bkt.nodeValues, bkt.linkValues⟩ :=
      setAttrType_get_self _ _ _ hget1t
    exact ⟨_, ri, ti, hok, hri, hti,
      ⟨_, hget2r, rfl, rfl⟩, ⟨_, hget2t, rfl, rfl⟩, rfl⟩

/-- Witness for C3 at concrete graphs: the graph lacking `tree_link`
fails with the lookup error naming it, and the well-formed example
assembles with both types forced to `bool`. -/
theorem c3_required_attributes_witness :
    from_graph exGraphNoTree = .error (.missingAttr (("tree_link").toList)) ∧
    (∃ (doc : GraphDoc Nat) (ri ti : Nat),
       from_graph exGraph = .ok doc ∧
       dlookup doc.attribute_order (("root").toList) = some ri ∧
       dlookup doc.attribute_order (("tree_link").toList) = some ti ∧
       (∃ a, doc.attributes.get? ri = some a ∧
          a.name = ("root").toList ∧ a.type = ("bool").toList) ∧
       (∃ a, doc.attributes.get? ti = some a ∧
          a.name = ("tree_link").toList ∧ a.type = ("bool").toList) ∧
       doc.qualifiers = [⟨("spanning_tree").toList, ("default_spanning_tree").toList,
                         ("Spanning tree for walrus").toList,
                         [(ri, ("root").toList), (ti, ("tree_link").toList)]⟩]) :=
  ⟨(c3_required_attributes Nat inferInstance exGraphNoTree (by decide)
      (by intro e he; fin_cases he <;> exact ⟨by decide, by decide⟩)).2.1
      (Or.inl ⟨10, by decide, by decide⟩)
      (by
        rintro (⟨n, hn, hattr⟩ | ⟨e, he, hattr⟩)
        · fin_cases hn <;> revert hattr <;> decide
        · fin_cases he <;> revert hattr <;> decide),
   (c3_required_attributes Nat inferInstance exGraph (by decide)
      (by intro e he; fin_cases he <;> exact ⟨by decide, by decide⟩)).2.2
      (Or.inl ⟨10, by decide, by decide⟩)
      (Or.inr ⟨⟨10, 11, [(("tree_link").toList, ("True").toList)]⟩, by decide, by decide⟩)⟩

theorem dlookup_enumPairs_lt {ν : Type _} [DecidableEq ν] (l : List ν) :
    ∀ (i : Nat) (n : ν) (id : Nat), dlookup (enumPairs l i) n = some id →
      i ≤ id ∧ id < i + l.length := by
  induction l with
  | nil => intro i n id h; simp [enumPairs, dlookup] at h
  | cons m rest ih =>
    intro i n id h
    rw [enumPairs, dlookup] at h
    by_cases hm : m = n
    · rw [if_pos hm] at h
      have : i = id := Option.some.inj h
      simp only [List.length_cons]
      omega
    · rw [if_neg hm] at h
      have := ih (i + 1) n id h
      simp only [List.length_cons]
      omega

/-- C5: assembling a graph with 3 distinct nodes and 2 edges (endpoints
among the nodes, required attributes present) yields a document with
`numNodes = 3` (the length of the id map), `numLinks = 2`, and the links
sequence holds exactly one (source id, destination id) pair per external
edge in edge-iteration order, all ids drawn from `{0,1,2}`. -/
theorem c5_three_nodes_two_edges (ν : Type) (inst : DecidableEq ν) (g : ExtGraph ν)
    (h3 : g.nodes.length = 3) (hnd : g.nodes.Nodup) (h2 : g.edges.length = 2)
    (hends : ∀ e ∈ g.edges, e.src ∈ g.nodes ∧ e.dst ∈ g.nodes)
    (hroot : hasAttrName g (("root").toList))
    (htl : hasAttrName g (("tree_link").toList)) :
    ∃ doc : GraphDoc ν, from_graph g = .ok doc ∧
      doc.nodes.length = 3 ∧ doc.links.length = 2 ∧
      doc.links = g.edges.map (fun e =>
        (lookupD (buildNodeOrder g.nodes) e.src 0, lookupD (buildNodeOrder g.nodes) e.dst 0)) ∧
      ∀ p ∈ doc.links, p.1 < 3 ∧ p.2 < 3 := by
  obtain ⟨ri, ti, _, _, hok⟩ := from_graph_ok_spec g hnd hends hroot htl
  refine ⟨_, hok, ?_, ?_, rfl, ?_⟩
  · show (buildNodeOrder g.nodes).length = 3
    rw [buildNodeOrder_of_nodup g.nodes hnd, enumPairs_length, h3]
  · show (edgeLinks (buildNodeOrder g.nodes) g.edges).length = 2
    rw [edgeLinks, List.length_map, h2]
  · intro p hp
    rcases List.mem_map.mp hp with ⟨e, he, rfl⟩
    obtain ⟨hs, hd⟩ := hends e he
    have hkeys : (buildNodeOrder g.nodes).map Prod.fst = g.nodes := by
      rw [buildNodeOrder_of_nodup g.nodes hnd, enumPairs_keys]
    have hsrcS : (dlookup (buildNodeOrder g.nodes) e.src).isSome = true := by
      rw [dlookup_isSome_iff, hkeys]; exact hs
    have hdstS : (dlookup (buildNodeOrder g.nodes) e.dst).isSome = true := by
      rw [dlookup_isSome_iff, hkeys]; exact hd
    obtain ⟨ids, hids⟩ := Option.isSome_iff_exists.mp hsrcS
    obtain ⟨idd, hidd⟩ := Option.isSome_iff_exists.mp hdstS
    have hbs := dlookup_enumPairs_lt g.nodes 0 e.src ids
      (by rw [← buildNodeOrder_of_nodup g.nodes hnd]; exact hids)
    have hbd := dlookup_enumPairs_lt g.nodes 0 e.dst idd
      (by rw [← buildNodeOrder_of_nodup g.nodes hnd]; exact hidd)
    constructor
    · show (dlookup (buildNodeOrder g.nodes) e.src).getD 0 < 3
      rw [hids]
      simp only [Option.getD_some]
      omega
    · show (dlookup (buildNodeOrder g.nodes) e.dst).getD 0 < 3
      rw [hidd]
      simp only [Option.getD_some]
      omega

/-- Witness for C5 at the concrete example graph. -/
theorem c5_three_nodes_two_edges_witness :
    ∃ doc : GraphDoc Nat, from_graph exGraph = .ok doc ∧
      doc.nodes.length = 3 ∧ doc.links.length = 2 ∧
      doc.links = exGraph.edges.map (fun e =>
        (lookupD (buildNodeOrder exGraph.nodes) e.src 0,
         lookupD (buildNodeOrder exGraph.nodes) e.dst 0)) ∧
      ∀ p ∈ doc.links, p.1 < 3 ∧ p.2 < 3 :=
  c5_three_nodes_two_edges Nat inferInstance exGraph (by decide) (by decide) (by decide)
    (by intro e he; fin_cases he <;> exact ⟨by decide, by decide⟩)
    (Or.inl ⟨10, by decide, by decide⟩)
    (Or.inr ⟨⟨10, 11, [(("tree_link").toList, ("True").toList)]⟩,
      List.mem_cons_self _ _, by decide⟩)

theorem dlookup_dictInsert_self {κ α : Type _} [DecidableEq κ] (d : List (κ × α)) (k : κ) (v : α) :
    dlookup (dictInsert d k v) k = some v := by
  induction d with
  | nil => simp [dictInsert, dlookup]
  | cons p rest ih =>
    obtain ⟨k2, v2⟩ := p
    by_cases hk : k2 = k
    · subst hk
      simp [dictInsert, dlookup]
    · simp [dictInsert, if_neg hk, dlookup, ih]

theorem dlookup_dictInsert_ne {κ α : Type _} [DecidableEq κ] (d : List (κ × α)) (k k' : κ) (v : α)
    (h : k' ≠ k) : dlookup (dictInsert d k v) k' = dlookup d k' := by
  have hkk : ¬ k = k' := fun hh => h hh.symm
  induction d with
  | nil => simp [dictInsert, dlookup, hkk]
  | cons p rest ih =>
    obtain ⟨k2, v2⟩ := p
    by_cases hk : k2 = k
    · subst hk
      simp [dictInsert, dlookup, hkk]
    · simp only [dictInsert, if_neg hk, dlookup, ih]

theorem nodeVal_bucketAddNode_self (bks : List (Str × Bucket)) (an : Str) (i : Nat) (v : PV) :
    nodeVal (bucketAddNode bks an i v) an i = some v := by
  induction bks with
  | nil => simp [bucketAddNode, nodeVal, dlookup, dlookup_dictInsert_self]
  | cons p rest ih =>
    obtain ⟨k, bk⟩ := p
    by_cases hk : k = an
    · subst hk
      simp [bucketAddNode, nodeVal, dlookup, dlookup_dictInsert_self]
    · simp only [bucketAddNode, if_neg hk, nodeVal, dlookup, if_neg hk] at ih ⊢
      exact ih

theorem nodeVal_bucketAddNode_other (bks : List (Str × Bucket)) (an an' : Str) (i j : Nat) (v : PV)
    (h : an' ≠ an ∨ j ≠ i) :
    nodeVal (bucketAddNode bks an i v) an' j = nodeVal bks an' j := by
  induction bks with
  | nil =>
    rcases h with h | h
    · simp [bucketAddNode, nodeVal, dlookup, if_neg (fun hh : an = an' => h hh.symm)]
    · by_cases hn : an = an'
      · subst hn
        simp [bucketAddNode, nodeVal, dlookup, if_neg (fun hh : i = j => h hh.symm)]
      · simp [bucketAddNode, nodeVal, dlookup, if_neg hn]
  | cons p rest ih =>
    obtain ⟨k, bk⟩ := p
    by_cases hk : k = an
    · subst hk
      by_cases hk' : k = an'
      · subst hk'
        rcases h with h | h
        · exact absurd rfl h
        · simp [bucketAddNode, nodeVal, dlookup, dlookup_dictInsert_ne _ _ _ _ h]
      · simp [bucketAddNode, nodeVal, dlookup, if_neg hk']
    · by_cases hk' : k = an'
      · subst hk'
        simp [bucketAddNode, if_neg hk, nodeVal, dlookup]
      · simp only [bucketAddNode, if_neg hk, nodeVal, dlookup, if_neg hk'] at ih ⊢
        exact ih

theorem nodeVal_bucketAddLink (bks : List (Str × Bucket)) (an an' : Str) (i j : Nat) (v : PV) :
    nodeVal (bucketAddLink bks an i v) an' j = nodeVal bks an' j := by
  induction bks with
  | nil =>
    by_cases hn : an = an'
    · subst hn
      simp [bucketAddLink, nodeVal, dlookup]
    · simp [bucketAddLink, nodeVal, dlookup, if_neg hn]
  | cons p rest ih =>
    obtain ⟨k, bk⟩ := p
    by_cases hk : k = an
    · subst hk
      by_cases hk' : k = an'
      · subst hk'
        simp [bucketAddLink, nodeVal, dlookup]
      · simp [bucketAddLink, nodeVal, dlookup, if_neg hk']
    · by_cases hk' : k = an'
      · subst hk'
        simp [bucketAddLink, if_neg hk, nodeVal, dlookup]
      · simp only [bucketAddLink, if_neg hk, nodeVal, dlookup, if_neg hk'] at ih ⊢
        exact ih

theorem linkVal_bucketAddLink_self (bks : List (Str × Bucket)) (an : Str) (i : Nat) (v : PV) :
    linkVal (bucketAddLink bks an i v) an i = some v := by
  induction bks with
  | nil => simp [bucketAddLink, linkVal, dlookup, dlookup_dictInsert_self]
  | cons p rest ih =>
    obtain ⟨k, bk⟩ := p
    by_cases hk : k = an
    · subst hk
      simp [bucketAddLink, linkVal, dlookup, dlookup_dictInsert_self]
    · simp only [bucketAddLink, if_neg hk, linkVal, dlookup, if_neg hk] at ih ⊢
      exact ih

theorem linkVal_bucketAddLink_other (bks : List (Str × Bucket)) (an an' : Str) (i j : Nat) (v : PV)
    (h : an' ≠ an ∨ j ≠ i) :
    linkVal (bucketAddLink bks an i v) an' j = linkVal bks an' j := by
  induction bks with
  | nil =>
    rcases h with h | h
    · simp [bucketAddLink, linkVal, dlookup, if_neg (fun hh : an = an' => h hh.symm)]
    · by_cases hn : an = an'
      · subst hn
        simp [bucketAddLink, linkVal, dlookup, if_neg (fun hh : i = j => h hh.symm)]
      · simp [bucketAddLink, linkVal, dlookup, if_neg hn]
  | cons p rest ih =>
    obtain ⟨k, bk⟩ := p
    by_cases hk : k = an
    · subst hk
      by_cases hk' : k = an'
      · subst hk'
        rcases h with h | h
        · exact absurd rfl h
        · simp [bucketAddLink, linkVal, dlookup, dlookup_dictInsert_ne _ _ _ _ h]
      · simp [bucketAddLink, linkVal, dlookup, if_neg hk']
    · by_cases hk' : k = an'
      · subst hk'
        simp [bucketAddLink, if_neg hk, linkVal, dlookup]
      · simp only [bucketAddLink, if_neg hk, linkVal, dlookup, if_neg hk'] at ih ⊢
        exact ih

theorem linkVal_bucketAddNode (bks : List (Str × Bucket)) (an an' : Str) (i j : Nat) (v : PV) :
    linkVal (bucketAddNode bks an i v) an' j = linkVal bks an' j := by
  induction bks with
  | nil =>
    by_cases hn : an = an'
    · subst hn
      simp [bucketAddNode, linkVal, dlookup]
    · simp [bucketAddNode, linkVal, dlookup, if_neg hn]
  | cons p rest ih =>
    obtain ⟨k, bk⟩ := p
    by_cases hk : k = an
    · subst hk
      by_cases hk' : k = an'
      · subst hk'
        simp [bucketAddNode, linkVal, dlookup]
      · simp [bucketAddNode, linkVal, dlookup, if_neg hk']
    · by_cases hk' : k = an'
      · subst hk'
        simp [bucketAddNode, if_neg hk, linkVal, dlookup]
      · simp only [bucketAddNode, if_neg hk, linkVal, dlookup, if_neg hk'] at ih ⊢
        exact ih

theorem nodeVal_addNodeAttrs_other (attrs : List (Str × Str)) :
    ∀ (bks : List (Str × Bucket)) (i j : Nat) (an : Str), j ≠ i →
      nodeVal (addNodeAttrs bks i attrs) an j = nodeVal bks an j := by
  induction attrs with
  | nil => intro bks i j an _; rfl
  | cons p rest ih =>
    intro bks i j an hj
    obtain ⟨k, w⟩ := p
    rw [addNodeAttrs, ih _ _ _ _ hj, nodeVal_bucketAddNode_other _ _ _ _ _ _ (Or.inr hj)]

theorem nodeVal_addNodeAttrs_absent (attrs : List (Str × Str)) :
    ∀ (bks : List (Str × Bucket)) (i j : Nat) (an : Str), an ∉ attrs.map Prod.fst →
      nodeVal (addNodeAttrs bks i attrs) an j = nodeVal bks an j := by
  induction attrs with
  | nil => intro bks i j an _; rfl
  | cons p rest ih =>
    intro bks i j an hab
    obtain ⟨k, w⟩ := p
    simp only [List.map_cons, List.mem_cons, not_or] at hab
    rw [addNodeAttrs, ih _ _ _ _ hab.2, nodeVal_bucketAddNode_other _ _ _ _ _ _ (Or.inl hab.1)]

theorem nodeVal_addNodeAttrs_self (attrs : List (Str × Str)) :
    ∀ (bks : List (Str × Bucket)) (i : Nat) (an : Str) (v : Str),
      (attrs.map Prod.fst).Nodup → (an, v) ∈ attrs →
      nodeVal (addNodeAttrs bks i attrs) an i = some (convertAttrValue v) := by
  induction attrs with
  | nil => intro bks i an v _ hmem; simp at hmem
  | cons p rest ih =>
    intro bks i an v hnd hmem
    obtain ⟨k, w⟩ := p
    simp only [List.map_cons, List.nodup_cons] at hnd
    rcases List.mem_cons.mp hmem with heq | hmem2
    · obtain ⟨rfl, rfl⟩ := Prod.mk.injEq _ _ _ _ ▸ heq
      have hout : an ∉ rest.map Prod.fst := by
        injection heq with h1 h2
        exact h1 ▸ hnd.1
      rw [addNodeAttrs, nodeVal_addNodeAttrs_absent rest _ _ _ _ hout,
          nodeVal_bucketAddNode_self]
    · have hk : k ≠ an := by
        intro hc
        subst hc
        exact hnd.1 (List.mem_map.mpr ⟨(k, v), hmem2, rfl⟩)
      rw [addNodeAttrs]
      exact ih _ _ _ _ hnd.2 hmem2

theorem linkVal_addNodeAttrs (attrs : List (Str × Str)) :
    ∀ (bks : List (Str × Bucket)) (i j : Nat) (an : Str),
      linkVal (addNodeAttrs bks i attrs) an j = linkVal bks an j := by
  induction attrs with
  | nil => intro bks i j an; rfl
  | cons p rest ih =>
    intro bks i j an
    obtain ⟨k, w⟩ := p
    rw [addNodeAttrs, ih, linkVal_bucketAddNode]

theorem linkVal_addEdgeAttrs_other (attrs : List (Str × Str)) :
    ∀ (bks : List (Str × Bucket)) (i j : Nat) (an : Str), j ≠ i →
      linkVal (addEdgeAttrs bks i attrs) an j = linkVal bks an j := by
  induction attrs with
  | nil => intro bks i j an _; rfl
  | cons p rest ih =>
    intro bks i j an hj
    obtain ⟨k, w⟩ := p
    rw [addEdgeAttrs, ih _ _ _ _ hj, linkVal_bucketAddLink_other _ _ _ _ _ _ (Or.inr hj)]

theorem linkVal_addEdgeAttrs_absent (attrs : List (Str × Str)) :
    ∀ (bks : List (Str × Bucket)) (i j : Nat) (an : Str), an ∉ attrs.map Prod.fst →
      linkVal (addEdgeAttrs bks i attrs) an j = linkVal bks an j := by
  induction attrs with
  | nil => intro bks i j an _; rfl
  | cons p rest ih =>
    intro bks i j an hab
    obtain ⟨k, w⟩ := p
    simp only [List.map_cons, List.mem_cons, not_or] at hab
    rw [addEdgeAttrs, ih _ _ _ _ hab.2, linkVal_bucketAddLink_other _ _ _ _ _ _ (Or.inl hab.1)]

theorem linkVal_addEdgeAttrs_self (attrs : List (Str × Str)) :
    ∀ (bks : List (Str × Bucket)) (i : Nat) (an : Str) (v : Str),
      (attrs.map Prod.fst).Nodup → (an, v) ∈ attrs →
      linkVal (addEdgeAttrs bks i attrs) an i = some (convertAttrValue v) := by
  induction attrs with
  | nil => intro bks i an v _ hmem; simp at hmem
  | cons p rest ih =>
    intro bks i an v hnd hmem
    obtain ⟨k, w⟩ := p
    simp only [List.map_cons, List.nodup_cons] at hnd
    rcases List.mem_cons.mp hmem with heq | hmem2
    · obtain ⟨rfl, rfl⟩ := Prod.mk.injEq _ _ _ _ ▸ heq
      have hout : an ∉ rest.map Prod.fst := by
        injection heq with h1 h2
        exact h1 ▸ hnd.1
      rw [addEdgeAttrs, linkVal_addEdgeAttrs_absent rest _ _ _ _ hout,
          linkVal_bucketAddLink_self]
    · rw [addEdgeAttrs]
      exact ih _ _ _ _ hnd.2 hmem2

theorem nodeVal_addEdgeAttrs (attrs : List (Str × Str)) :
    ∀ (bks : List (Str × Bucket)) (i j : Nat) (an : Str),
      nodeVal (addEdgeAttrs bks i attrs) an j = nodeVal bks an j := by
  induction attrs with
  | nil => intro bks i j an; rfl
  | cons p rest ih =>
    intro bks i j an
    obtain ⟨k, w⟩ := p
    rw [addEdgeAttrs, ih, nodeVal_bucketAddLink]

theorem nodeVal_buildNodeBucketsAux_lt {ν : Type _} (na : ν → List (Str × Str)) (nodes : List ν) :
    ∀ (bks : List (Str × Bucket)) (i j : Nat) (an : Str), j < i →
      nodeVal (buildNodeBucketsAux na bks nodes i) an j = nodeVal bks an j := by
  induction nodes with
  | nil => intro bks i j an _; rfl
  | cons n rest ih =>
    intro bks i j an hj
    rw [buildNodeBucketsAux, ih _ _ _ _ (by omega),
        nodeVal_addNodeAttrs_other _ _ _ _ _ (by omega)]

theorem nodeVal_buildNodeBucketsAux_get {ν : Type _} (na : ν → List (Str × Str)) (nodes : List ν) :
    ∀ (bks : List (Str × Bucket)) (i jn : Nat) (node : ν) (an v : Str),
      nodes.get? jn = some node → ((na node).map Prod.fst).Nodup → (an, v) ∈ na node →
      nodeVal (buildNodeBucketsAux na bks nodes i) an (i + jn) = some (convertAttrValue v) := by
  induction nodes with
  | nil => intro bks i jn node an v hget _ _; simp at hget
  | cons n rest ih =>
    intro bks i jn node an v hget hnd hmem
    cases jn with
    | zero =>
      have hn : n = node := by simpa using hget
      subst hn
      rw [buildNodeBucketsAux, nodeVal_buildNodeBucketsAux_lt na rest _ _ _ _ (by omega)]
      simpa using nodeVal_addNodeAttrs_self (na n) bks i an v hnd hmem
    | succ jn2 =>
      have hget2 : rest.get? jn2 = some node := by simpa using hget
      rw [buildNodeBucketsAux]
      have := ih (addNodeAttrs bks i (na n)) (i + 1) jn2 node an v hget2 hnd hmem
      have harith : i + 1 + jn2 = i + (jn2 + 1) := by omega
      rw [harith] at this
      exact this

theorem linkVal_buildNodeBucketsAux {ν : Type _} (na : ν → List (Str × Str)) (nodes : List ν) :
    ∀ (bks : List (Str × Bucket)) (i j : Nat) (an : Str),
      linkVal (buildNodeBucketsAux na bks nodes i) an j = linkVal bks an j := by
  induction nodes with
  | nil => intro bks i j an; rfl
  | cons n rest ih =>
    intro bks i j an
    rw [buildNodeBucketsAux, ih, linkVal_addNodeAttrs]

theorem nodeVal_edgeBucketsFold {ν : Type _} (edges : List (Edge ν)) :
    ∀ (bks : List (Str × Bucket)) (i j : Nat) (an : Str),
      nodeVal (edgeBucketsFold edges i bks) an j = nodeVal bks an j := by
  induction edges with
  | nil => intro bks i j an; rfl
  | cons e rest ih =>
    intro bks i j an
    rw [edgeBucketsFold, ih, nodeVal_addEdgeAttrs]

theorem linkVal_edgeBucketsFold_lt {ν : Type _} (edges : List (Edge ν)) :
    ∀ (bks : List (Str × Bucket)) (i j : Nat) (an : Str), j < i →
      linkVal (edgeBucketsFold edges i bks) an j = linkVal bks an j := by
  induction edges with
  | nil => intro bks i j an _; rfl
  | cons e rest ih =>
    intro bks i j an hj
    rw [edgeBucketsFold, ih _ _ _ _ (by omega),
        linkVal_addEdgeAttrs_other _ _ _ _ _ (by omega)]

theorem linkVal_edgeBucketsFold_get {ν : Type _} (edges : List (Edge ν)) :
    ∀ (bks : List (Str × Bucket)) (i je : Nat) (e : Edge ν) (an v : Str),
      edges.get? je = some e → (e.attr.map Prod.fst).Nodup → (an, v) ∈ e.attr →
      linkVal (edgeBucketsFold edges i bks) an (i + je) = some (convertAttrValue v) := by
  induction edges with
  | nil => intro bks i je e an v hget _ _; simp at hget
  | cons e2 rest ih =>
    intro bks i je e an v hget hnd hmem
    cases je with
    | zero =>
      have he : e2 = e := by simpa using hget
      subst he
      rw [edgeBucketsFold, linkVal_edgeBucketsFold_lt rest _ _ _ _ (by omega)]
      simpa using linkVal_addEdgeAttrs_self e2.attr bks i an v hnd hmem
    | succ je2 =>
      have hget2 : rest.get? je2 = some e := by simpa using hget
      rw [edgeBucketsFold]
      have := ih (addEdgeAttrs bks i e2.attr) (i + 1) je2 e an v hget2 hnd hmem
      have harith : i + 1 + je2 = i + (je2 + 1) := by omega
      rw [harith] at this
      exact this

theorem attrDefs_of_nodeVal (bks : List (Str × Bucket)) (an : Str) (k : Nat) (x : PV)
    (h : nodeVal bks an k = some x) :
    ∃ a ∈ buildAttrDefs bks, a.name = an ∧ dlookup a.nodeValues k = some x := by
  unfold nodeVal at h
  rcases hb : dlookup bks an with _ | bk
  · rw [hb] at h; simp at h
  · rw [hb] at h
    refine ⟨⟨an, ("string").toList, bk.nodeValues, bk.linkValues⟩, ?_, rfl, h⟩
    rw [buildAttrDefs]
    exact List.mem_map.mpr ⟨(an, bk), dlookup_mem bks an bk hb, rfl⟩

theorem attrDefs_of_linkVal (bks : List (Str × Bucket)) (an : Str) (k : Nat) (x : PV)
    (h : linkVal bks an k = some x) :
    ∃ a ∈ buildAttrDefs bks, a.name = an ∧ dlookup a.linkValues k = some x := by
  unfold linkVal at h
  rcases hb : dlookup bks an with _ | bk
  · rw [hb] at h; simp at h
  · rw [hb] at h
    refine ⟨⟨an, ("string").toList, bk.nodeValues, bk.linkValues⟩, ?_, rfl, h⟩
    rw [buildAttrDefs]
    exact List.mem_map.mpr ⟨(an, bk), dlookup_mem bks an bk hb, rfl⟩

theorem mem_setAttrType (attrs : List AttrDef) (i : Nat) (a : AttrDef) (h : a ∈ attrs) :
    ∃ a' ∈ setAttrType attrs i, a'.name = a.name ∧
      a'.nodeValues = a.nodeValues ∧ a'.linkValues = a.linkValues := by
  obtain ⟨p, hp⟩ := List.get?_of_mem h
  by_cases hpi : p = i
  · subst hpi
    refine ⟨⟨a.name, ("bool").toList, a.nodeValues, a.linkValues⟩,
      List.get?_mem (setAttrType_get_self attrs p a hp), rfl, rfl, rfl⟩
  · have hget : (setAttrType attrs i).get? p = some a := by
      rw [setAttrType_get_ne attrs i p hpi]
      exact hp
    exact ⟨a, List.get?_mem hget, rfl, rfl, rfl⟩

/-- C2: during assembly, every node-attribute and edge-attribute value is
stored in that attribute's nodeValues/linkValues bucket after conversion:
the literal text `True`/`False` becomes the node `Value('T')`/`Value('F')`
(which renders as `T`/`F` respectively), and every other value is stored
as-is (the raw looked-up text). -/
theorem c2_true_false_conversion (ν : Type) (inst : DecidableEq ν) (g : ExtGraph ν)
    (doc : GraphDoc ν) (hok : from_graph g = .ok doc) :
    (∀ (i : Nat) (node : ν) (an v : Str),
       g.nodes.get? i = some node → ((g.nodeAttr node).map Prod.fst).Nodup →
       (an, v) ∈ g.nodeAttr node →
       ∃ a ∈ doc.attributes, a.name = an ∧
         dlookup a.nodeValues i = some (convertAttrValue v)) ∧
    (∀ (i : Nat) (e : Edge ν) (an v : Str),
       g.edges.get? i = some e → (e.attr.map Prod.fst).Nodup →
       (an, v) ∈ e.attr →
       ∃ a ∈ doc.attributes, a.name = an ∧
         dlookup a.linkValues i = some (convertAttrValue v)) ∧
    (∀ v : Str,
       (v = ("True").toList → convertAttrValue v = .value (("T").toList) ∧
          ∀ labels : Bool, ser labels (convertAttrValue v) = ("T").toList) ∧
       (v = ("False").toList → convertAttrValue v = .value (("F").toList) ∧
          ∀ labels : Bool, ser labels (convertAttrValue v) = ("F").toList) ∧
       (v ≠ ("True").toList → v ≠ ("False").toList → convertAttrValue v = .pyStr v)) := by
  obtain ⟨links, bks, ri, ti, hlen, hedge, hri, hti, hdoc⟩ := from_graph_ok_elim g doc hok
  have hbks : bks = finalBuckets g :=
    edgePass_buckets (buildNodeOrder g.nodes) g.edges 0 [] links
      (buildNodeBuckets g.nodeAttr g.nodes) bks hedge
  have hattrs : doc.attributes = setAttrType (setAttrType (buildAttrDefs bks) ri) ti := by
    rw [hdoc]
  refine ⟨?_, ?_, ?_⟩
  · intro i node an v hget hnd hmem
    have h1 : nodeVal (buildNodeBuckets g.nodeAttr g.nodes) an i =
        some (convertAttrValue v) := by
      have := nodeVal_buildNodeBucketsAux_get g.nodeAttr g.nodes [] 0 i node an v hget hnd hmem
      rw [Nat.zero_add] at this
      exact this
    have h2 : nodeVal (finalBuckets g) an i = some (convertAttrValue v) := by
      rw [finalBuckets, nodeVal_edgeBucketsFold]
      exact h1
    rw [← hbks] at h2
    obtain ⟨a0, ha0, hname, hvals⟩ := attrDefs_of_nodeVal bks an i _ h2
    obtain ⟨a1, ha1, hname1, hnv1, _⟩ := mem_setAttrType (buildAttrDefs bks) ri a0 ha0
    obtain ⟨a2, ha2, hname2, hnv2, _⟩ := mem_setAttrType (setAttrType (buildAttrDefs bks) ri) ti a1 ha1
    refine ⟨a2, by rw [hattrs]; exact ha2, by rw [hname2, hname1, hname], ?_⟩
    rw [hnv2, hnv1, hvals]
  · intro i e an v hget hnd hmem
    have h1 : linkVal (finalBuckets g) an i = some (convertAttrValue v) := by
      have := linkVal_edgeBucketsFold_get g.edges
        (buildNodeBuckets g.nodeAttr g.nodes) 0 i e an v hget hnd hmem
      rw [Nat.zero_add] at this
      exact this
    rw [← hbks] at h1
    obtain ⟨a0, ha0, hname, hvals⟩ := attrDefs_of_linkVal bks an i _ h1
    obtain ⟨a1, ha1, hname1, _, hlv1⟩ := mem_setAttrType (buildAttrDefs bks) ri a0 ha0
    obtain ⟨a2, ha2, hname2, _, hlv2⟩ := mem_setAttrType (setAttrType (buildAttrDefs bks) ri) ti a1 ha1
    refine ⟨a2, by rw [hattrs]; exact ha2, by rw [hname2, hname1, hname], ?_⟩
    rw [hlv2, hlv1, hvals]
  · intro v
    refine ⟨?_, ?_, ?_⟩
    · rintro rfl
      exact ⟨rfl, fun _ => rfl⟩
    · rintro rfl
      exact ⟨rfl, fun _ => rfl⟩
    · intro h1 h2
      rw [convertAttrValue, if_neg h1, if_neg h2]

/-- Witness for C2: in the assembled example document, the `root` node
attribute of the first node (looked-up text `"True"`) is stored as
`Value('T')`, which renders as `T`. -/
theorem c2_true_false_conversion_witness :
    (∃ a ∈ exDoc.attributes, a.name = ("root").toList ∧
       dlookup a.nodeValues 0 = some (convertAttrValue (("True").toList))) ∧
    convertAttrValue (("True").toList) = .value (("T").toList) ∧
    ser true (convertAttrValue (("True").toList)) = ("T").toList := by
  have h := c2_true_false_conversion Nat inferInstance exGraph exDoc rfl
  exact ⟨h.1 0 10 (("root").toList) (("True").toList) (by decide) (by decide) (by decide),
         ((h.2.2 (("True").toList)).1 rfl).1,
         ((h.2.2 (("True").toList)).1 rfl).2 true⟩

theorem digitChar_mem (n : Nat) : digitChar n ∈ ("0123456789").toList := by
  unfold digitChar
  split <;> decide

theorem natDigits_chars (fuel : Nat) :
    ∀ n, ∀ c ∈ natDigits fuel n, c ∈ ("0123456789").toList := by
  induction fuel with
  | zero => intro n c hc; simp [natDigits] at hc
  | succ k ih =>
    intro n c hc
    rw [natDigits] at hc
    by_cases hn : n < 10
    · rw [if_pos hn] at hc
      rcases List.mem_singleton.mp hc with rfl
      exact digitChar_mem n
    · rw [if_neg hn] at hc
      rcases List.mem_append.mp hc with h | h
      · exact ih _ c h
      · rcases List.mem_singleton.mp h with rfl
        exact digitChar_mem _

theorem natStr_ne_nil (n : Nat) : natStr n ≠ [] := by
  rw [natStr, natDigits]
  by_cases hn : n < 10 <;> simp [hn]

theorem clean_of_chars (s : Str) (hne : s ≠ []) (h : ∀ c ∈ s, c ∈ floatChars) :
    rendersClean s := by
  have hall : ∀ c ∈ floatChars, c ≠ '\n' ∧ c ≠ ';' := by decide
  have hsafe : ∀ c ∈ s, c ≠ '\n' ∧ c ≠ ';' := fun c hc => hall c (h c hc)
  refine ⟨?_, ?_, ?_⟩
  · cases s with
    | nil => simp
    | cons c rest =>
      intro hc
      have : c = '\n' := by simpa using hc
      exact (hsafe c (by simp)).1 this
  · intro hc
    have hm : '\n' ∈ s := List.mem_of_mem_getLast? (by rw [hc]; rfl)
    exact (hsafe '\n' hm).1 rfl
  · intro hc
    have hm : ';' ∈ s := List.mem_of_mem_getLast? (by rw [hc]; rfl)
    exact (hsafe ';' hm).2 rfl

theorem digits_subset_floatChars : ∀ c ∈ ("0123456789").toList, c ∈ floatChars := by
  decide

theorem natStr_clean (n : Nat) : rendersClean (natStr n) :=
  clean_of_chars _ (natStr_ne_nil n)
    (fun c hc => digits_subset_floatChars c (natDigits_chars _ _ c hc))

theorem intStr_clean (n : Int) : rendersClean (intStr n) := by
  cases n with
  | ofNat m => exact natStr_clean m
  | negSucc m =>
    rcases hs : natStr (m + 1) with _ | ⟨c, rest⟩
    · exact absurd hs (natStr_ne_nil _)
    · have hcl := natStr_clean (m + 1)
      rw [hs] at hcl
      refine ⟨by simp [intStr], ?_, ?_⟩
      · show ('-' :: natStr (m + 1)).getLast? ≠ some '\n'
        rw [hs, show ('-' :: (c :: rest)).getLast? = (c :: rest).getLast? from rfl]
        exact hcl.2.1
      · show ('-' :: natStr (m + 1)).getLast? ≠ some ';'
        rw [hs, show ('-' :: (c :: rest)).getLast? = (c :: rest).getLast? from rfl]
        exact hcl.2.2

theorem clean_concat (a b : Char) (mid : Str) (ha : a ≠ '\n')
    (hb1 : b ≠ '\n') (hb2 : b ≠ ';') : rendersClean (a :: (mid ++ [b])) := by
  refine ⟨?_, ?_, ?_⟩
  · intro hc
    exact ha (by simpa using hc)
  · rw [show (a :: (mid ++ [b])) = (a :: mid) ++ [b] from rfl, List.getLast?_concat]
    intro hc
    exact hb1 (by simpa using hc)
  · rw [show (a :: (mid ++ [b])) = (a :: mid) ++ [b] from rfl, List.getLast?_concat]
    intro hc
    exact hb2 (by simpa using hc)

/-- C7: for every document node type (String, Bool, Identifier, Double,
Integer, Tuple, List, Object, Graph), with either value of the labeled
flag and indent level 0, the serialized text has no leading newline, no
trailing newline, and does not end in the record terminator `;`.
Identifier and Double hold free-form payloads, so for those the property
is stated under the payload shapes the program produces (a name with no
trailing newline/terminator; a numeric text). -/
theorem c7_no_leading_trailing (labels comments : Bool) :
    (∀ s : Str, rendersClean (serInd labels 0 (.string s))) ∧
    (∀ b : Bool, rendersClean (serInd labels 0 (.bool b))) ∧
    (∀ s : Str, s.getLast? ≠ some '\n' → s.getLast? ≠ some ';' →
       rendersClean (serInd labels 0 (.ident s))) ∧
    (∀ t : Str, t ≠ [] → (∀ c ∈ t, c ∈ floatChars) →
       rendersClean (serInd labels 0 (.double t))) ∧
    (∀ n : Int, rendersClean (serInd labels 0 (.integer n))) ∧
    (∀ (names : List Str) (vals : List PV),
       rendersClean (serInd labels 0 (.tuple names vals))) ∧
    (∀ xs : List PV, rendersClean (serInd labels 0 (.list xs))) ∧
    (∀ (keys : List Str) (vals : List PV),
       rendersClean (serInd labels 0 (.object keys vals))) ∧
    (∀ (ν : Type) (doc : GraphDoc ν) (d : Str), doc.description = some d →
       ∃ out, serializeGraph labels comments doc = .ok out ∧ rendersClean out) := by
  refine ⟨?_, ?_, ?_, ?_, ?_, ?_, ?_, ?_, ?_⟩
  · intro s
    exact clean_concat '"' '"' (escape (stringInit s)) (by decide) (by decide) (by decide)
  · intro b
    cases b
    · exact ⟨by show (['F'] : Str).head? ≠ some '\n'; decide,
        by show (['F'] : Str).getLast? ≠ some '\n'; decide,
        by show (['F'] : Str).getLast? ≠ some ';'; decide⟩
    · exact ⟨by show (['T'] : Str).head? ≠ some '\n'; decide,
        by show (['T'] : Str).getLast? ≠ some '\n'; decide,
        by show (['T'] : Str).getLast? ≠ some ';'; decide⟩
  · intro s h1 h2
    refine ⟨by simp [serInd, indentText, ser], ?_, ?_⟩
    · show ('$' :: s).getLast? ≠ some '\n'
      cases s with
      | nil => decide
      | cons c rest =>
        rw [show ('$' :: (c :: rest)).getLast? = (c :: rest).getLast? from rfl]
        exact h1
    · show ('$' :: s).getLast? ≠ some ';'
      cases s with
      | nil => decide
      | cons c rest =>
        rw [show ('$' :: (c :: rest)).getLast? = (c :: rest).getLast? from rfl]
        exact h2
  · intro t hne hchars
    exact clean_of_chars t hne hchars
  · intro n
    exact intStr_clean n
  · intro names vals
    cases names with
    | nil =>
      exact clean_concat '\x7b' '\x7d' (joinWith [' '] (serTupleAnon labels vals))
        (by decide) (by decide) (by decide)
    | cons nm nrest =>
      exact clean_concat '\x7b' '\x7d'
        (joinWith [' '] (serTupleNamed labels (nm :: nrest) vals))
        (by decide) (by decide) (by decide)
  · intro xs
    refine ⟨by simp [serInd, indentText, ser], ?_, ?_⟩
    · show (('[' :: '\n' :: joinWith (',' :: ['\n']) (serListItems labels xs)) ++
        ['\n', ']']).getLast? ≠ some '\n'
      rw [List.getLast?_append_of_ne_nil _ (by decide)]
      decide
    · show (('[' :: '\n' :: joinWith (',' :: ['\n']) (serListItems labels xs)) ++
        ['\n', ']']).getLast? ≠ some ';'
      rw [List.getLast?_append_of_ne_nil _ (by decide)]
      decide
  · intro keys vals
    exact clean_concat '\x7b' '\x7d' ('\n' :: serObjectBody labels keys vals)
      (by decide) (by decide) (by decide)
  · intro ν doc d hd
    refine ⟨("Graph\n").toList ++ '\x7b' :: '\n' :: graphBody labels comments doc d ++ ['\x7d'],
      by rw [serializeGraph, hd], ?_, ?_, ?_⟩
    · show ('G' :: (("raph\n").toList ++ '\x7b' :: '\n' ::
        graphBody labels comments doc d ++ ['\x7d'])).head? ≠ some '\n'
      intro h
      injection h with h
      exact absurd h (by decide)
    · show ((("Graph\n").toList ++ '\x7b' :: '\n' :: graphBody labels comments doc d) ++
        ['\x7d']).getLast? ≠ some '\n'
      rw [List.getLast?_concat]
      decide
    · show ((("Graph\n").toList ++ '\x7b' :: '\n' :: graphBody labels comments doc d) ++
        ['\x7d']).getLast? ≠ some ';'
      rw [List.getLast?_concat]
      decide

/-- Witness for C7 at concrete payloads and the assembled example
document. -/
theorem c7_no_leading_trailing_witness :
    rendersClean (serInd true 0 (.ident (("root").toList))) ∧
    rendersClean (serInd true 0 (.double (("1.5").toList))) ∧
    (∃ out, serializeGraph true true exDoc = .ok out ∧ rendersClean out) := by
  have h := c7_no_leading_trailing true true
  exact ⟨h.2.2.1 _ (by decide) (by decide),
         h.2.2.2.1 _ (by decide) (by decide),
         h.2.2.2.2.2.2.2.2 Nat exDoc (("Generated by libsea.py").toList) (by rfl)⟩
